import Mathlib

/-!  Shallow embedding of the HARK backward-induction solver core
     (`HARK/HARKcore.py`) and of the SMM objective's entry guard
     (`ConsumptionSavingModel/SolvingMicroDSOPs.py`).

     Modelling conventions:
     * Python's dynamic attribute store becomes a finite partial map
       `String → Option (PyObj V)`; `none` is a missing attribute
       (`AttributeError` on access).
     * A Python dict becomes `String → Option (DV V)` where the outer
       `Option` is key presence (`none` = `KeyError`) and `DV V` is the
       stored value, itself an `Option` so that Python's `None` (used to
       initialise the time-varying slots of `solve_dict`) is representable.
     * Fallible Python code returns `Except String`; the string is the
       exception's flavour.
     * The per-period solver is kept outside the attribute store (functions
       are not first-class in the value domain `V`): the fixed solver and
       the per-period solver list are separate fields, and the convention
       `"solveAPeriod" ∈ time_vary` selects the list, exactly as the
       membership test in `solveACycle` does.
     * Solution objects and parameter scalars share the opaque value type
       `V`; `distance` and `tolerance` live on the agent so that
       `isSameThing` can be evaluated. -/

namespace HARK

/-- A value held in an agent's attribute store: either an opaque scalar
object or a Python list (used for time-varying sequences). -/
inductive PyObj (V : Type) where
  | scalar : V → PyObj V
  | seq : List V → PyObj V
  deriving DecidableEq

/-- A dict value: `none` is Python's `None`. -/
abbrev DV (V : Type) := Option (PyObj V)

/-- The `solve_dict` of `solveACycle`: key presence is the outer `Option`. -/
abbrev SolveDict (V : Type) := String → Option (DV V)

/-- The keyword-argument dict actually passed to a per-period solver. -/
abbrev ArgDict (V : Type) := List (String × DV V)

/-- A per-period solver together with its introspected argument names
(`getArgNames`). -/
abbrev Solver (V : Type) := List String × (ArgDict V → Except String V)

/-- The state of one `AgentType` instance (`HARKcore.AgentType`). -/
structure Agent (V : Type) where
  solution_terminal : V
  cycles : Nat
  time_flow : Bool
  pseudo_terminal : Bool
  tolerance : ℚ
  distance : V → V → ℚ
  time_vary : List String
  time_inv : List String
  attrs : String → Option (PyObj V)
  solveAPeriod : Solver V
  solveAPeriodSeq : List (Solver V)

variable {V : Type}

/-- Pointwise update of an attribute store. -/
def updAttr (f : String → Option (PyObj V)) (name : String) (o : PyObj V) :
    String → Option (PyObj V) :=
  fun k => if k = name then some o else f k

/-- One step of `AgentType.timeFlip`: `exec('self.' + name + '.reverse()')`.
When the name is the per-period solver the solver list field is reversed;
any other attribute must hold a list, else the call raises. -/
def flipName (a : Agent V) (name : String) : Except String (Agent V) :=
  if name = "solveAPeriod" then
    Except.ok { a with solveAPeriodSeq := a.solveAPeriodSeq.reverse }
  else
    match a.attrs name with
    | some (PyObj.seq xs) =>
        Except.ok { a with attrs := updAttr a.attrs name (PyObj.seq xs.reverse) }
    | _ => Except.error "AttributeError: no list to reverse"

/-- The loop body of `timeFlip`, over a snapshot of `time_vary`. -/
def flipNames : Agent V → List String → Except String (Agent V)
  | a, [] => Except.ok a
  | a, n :: rest =>
    match flipName a n with
    | Except.ok b => flipNames b rest
    | Except.error e => Except.error e

/-- `AgentType.timeFlip`: reverse every time-varying sequence, then toggle
`time_flow`. -/
def timeFlip (a : Agent V) : Except String (Agent V) :=
  match flipNames a a.time_vary with
  | Except.ok b => Except.ok { b with time_flow := !b.time_flow }
  | Except.error e => Except.error e

/-- `AgentType.timeFwd`: flip only when time is not already flowing forward. -/
def timeFwd (a : Agent V) : Except String (Agent V) :=
  if a.time_flow then Except.ok a else timeFlip a

/-- `AgentType.timeRev`: flip only when time is currently flowing forward. -/
def timeRev (a : Agent V) : Except String (Agent V) :=
  if a.time_flow then timeFlip a else Except.ok a

/-- `AgentType.isSameThing`: distance at most the tolerance. -/
def isSameThing (a : Agent V) (x y : V) : Bool :=
  decide (a.distance x y ≤ a.tolerance)

/-- `AgentType.assignParameters`: bulk reflective attribute assignment. -/
def assignParameters (a : Agent V) (kvs : List (String × PyObj V)) : Agent V :=
  { a with attrs := kvs.foldl (fun f kv => updAttr f kv.1 kv.2) a.attrs }

/-- The period count `T` of `solveACycle`: the length of the first
time-varying sequence, defaulting to 1 when everything is time-invariant. -/
def periodCount (a : Agent V) : Except String Nat :=
  match a.time_vary with
  | [] => Except.ok 1
  | name :: _ =>
    if name = "solveAPeriod" then Except.ok a.solveAPeriodSeq.length
    else
      match a.attrs name with
      | some (PyObj.seq xs) => Except.ok xs.length
      | _ => Except.error "TypeError: object has no len"

/-- Write one key of a `SolveDict` (the key becomes present). -/
def setKey (d : SolveDict V) (k : String) (v : DV V) : SolveDict V :=
  fun n => if n = k then some v else d n

/-- The time-invariant entries of the `solve_dict` literal: each named
attribute is read (a missing one raises) and stored under its name. -/
def setInvKeys (a : Agent V) : SolveDict V → List String → Except String (SolveDict V)
  | d, [] => Except.ok d
  | d, n :: rest =>
    match a.attrs n with
    | some o => setInvKeys a (setKey d n (some o)) rest
    | none => Except.error "AttributeError"

/-- The time-varying entries of the `solve_dict` literal: every name is
bound to Python `None`. -/
def setVaryKeys : SolveDict V → List String → SolveDict V
  | d, [] => d
  | d, n :: rest => setVaryKeys (setKey d n none) rest

/-- Construction of `solve_dict`: time-invariant entries first, then the
time-varying names bound to `None` (later entries override earlier ones,
as in a Python dict literal). -/
def initSolveDict (a : Agent V) : Except String (SolveDict V) :=
  match setInvKeys a (fun _ => none) a.time_inv with
  | Except.ok d => Except.ok (setVaryKeys d a.time_vary)
  | Except.error e => Except.error e

/-- The per-period update loop: every time-varying name the solver declares
is rebound to the `t`-th element of its sequence. -/
def updateVary (a : Agent V) (args : List String) (t : Nat) :
    SolveDict V → List String → Except String (SolveDict V)
  | d, [] => Except.ok d
  | d, n :: rest =>
    if n ∈ args then
      match a.attrs n with
      | some (PyObj.seq xs) =>
        match xs.get? t with
        | some x => updateVary a args t (setKey d n (some (PyObj.scalar x))) rest
        | none => Except.error "IndexError"
      | _ => Except.error "TypeError: not indexable"
    else updateVary a args t d rest

/-- The `temp_dict` comprehension `{name: solve_dict[name] for name in
these_args}`: a declared name absent from `solve_dict` raises `KeyError`. -/
def buildTemp (d : SolveDict V) : List String → Except String (ArgDict V)
  | [] => Except.ok []
  | n :: rest =>
    match d n with
    | some v =>
      match buildTemp d rest with
      | Except.ok temp => Except.ok ((n, v) :: temp)
      | Except.error e => Except.error e
    | none => Except.error "KeyError"

/-- One period's argument assembly inside `solveACycle`: update the
time-varying slots, bind `solution_tp1`, and take the declared subset.
Returns the keyword arguments together with the threaded `solve_dict`. -/
def periodTemp (a : Agent V) (args : List String) (t : Nat) (sol_tp1 : V)
    (d : SolveDict V) : Except String (ArgDict V × SolveDict V) :=
  match updateVary a args t d a.time_vary with
  | Except.ok d1 =>
    let d2 := setKey d1 "solution_tp1" (some (PyObj.scalar sol_tp1))
    match buildTemp d2 args with
    | Except.ok temp => Except.ok (temp, d2)
    | Except.error e => Except.error e
  | Except.error e => Except.error e

/-- Which single-period solver is used at period `t`: the `t`-th element of
the solver list when `'solveAPeriod'` is time-varying, the fixed solver
otherwise. -/
def getSolver (a : Agent V) (t : Nat) : Except String (Solver V) :=
  if "solveAPeriod" ∈ a.time_vary then
    match a.solveAPeriodSeq.get? t with
    | some s => Except.ok s
    | none => Except.error "IndexError: solver list"
  else Except.ok a.solveAPeriod

/-- The period loop of `solveACycle`: the first argument is the number of
periods still to solve, the second the current period index `t`. -/
def cycleLoop (a : Agent V) : Nat → Nat → SolveDict V → V → Except String (List V)
  | 0, _, _, _ => Except.ok []
  | T + 1, t, d, sol_tp1 =>
    match getSolver a t with
    | Except.ok solver =>
      match periodTemp a solver.1 t sol_tp1 d with
      | Except.ok (temp, d1) =>
        match solver.2 temp with
        | Except.ok sol_t =>
          match cycleLoop a T (t + 1) d1 sol_t with
          | Except.ok rest => Except.ok (sol_t :: rest)
          | Except.error e => Except.error e
        | Except.error e => Except.error e
      | Except.error e => Except.error e
    | Except.error e => Except.error e

/-- `HARKcore.solveACycle`: solve one cycle, threading each period's
solution into the next period's `solution_tp1`. -/
def solveACycle (a : Agent V) (solution_last : V) : Except String (List V) :=
  match periodCount a with
  | Except.ok T =>
    match initSolveDict a with
    | Except.ok d => cycleLoop a T 0 d solution_last
    | Except.error e => Except.error e
  | Except.error e => Except.error e

/-- `solution_cycle[-1]`: the last element, raising on an empty list. -/
def lastOf (xs : List V) : Except String V :=
  match xs.getLast? with
  | some x => Except.ok x
  | none => Except.error "IndexError: list index out of range"

/-- The finite-horizon face of the `while go` loop of `solveAgent`: the
body runs once per remaining cycle, accumulating the cycles in order and
counting completed cycles. -/
def solveFinLoop (a : Agent V) : V → Nat → Except String (List V × Nat)
  | _, 0 => Except.ok ([], 0)
  | sl, m + 1 =>
    match solveACycle a sl with
    | Except.ok cyc =>
      match lastOf cyc with
      | Except.ok now =>
        match solveFinLoop a now m with
        | Except.ok (rest, n) => Except.ok (cyc ++ rest, n + 1)
        | Except.error e => Except.error e
      | Except.error e => Except.error e
    | Except.error e => Except.error e

/-- The infinite-horizon face of the `while go` loop of `solveAgent`.  The
second argument is the running `completed_cycles`; `go` is exactly the
source's condition (first cycle unconditional, then "not the same and the
count before increment is below `max_cycles = 5000`").  The fuel is a
structural bound only: from the entry state `(5001, s, 0)` the guard makes
it unreachable, which is proved below. -/
def solveInfLoop (a : Agent V) : Nat → V → Nat → Except String (List V × Nat)
  | 0, _, _ => Except.error "fuel exhausted"
  | fuel + 1, sl, completed =>
    match solveACycle a sl with
    | Except.ok cyc =>
      match lastOf cyc with
      | Except.ok now =>
        let go : Bool :=
          if 0 < completed then
            !(isSameThing a now sl) && decide (completed < 5000)
          else true
        if go then solveInfLoop a fuel now (completed + 1)
        else Except.ok (cyc, completed + 1)
      | Except.error e => Except.error e
    | Except.error e => Except.error e

/-- `HARKcore.solveAgent`: force time backward, iterate cycles (a fixed
count when `cycles > 0`, to convergence otherwise), restore the time
direction, and return the solution list together with the number of
completed cycles. -/
def solveAgent (a0 : Agent V) : Except String (Agent V × List V × Nat) :=
  match timeRev a0 with
  | Except.ok a =>
    if a.cycles = 0 then
      match solveInfLoop a 5001 a.solution_terminal 0 with
      | Except.ok (cyc, n) =>
        match (if a0.time_flow then timeFwd a else Except.ok a) with
        | Except.ok a2 => Except.ok (a2, cyc, n)
        | Except.error e => Except.error e
      | Except.error e => Except.error e
    else
      match solveFinLoop a a.solution_terminal a.cycles with
      | Except.ok (sols, n) =>
        match (if a0.time_flow then timeFwd a else Except.ok a) with
        | Except.ok a2 =>
          Except.ok
            (a2, (if a.pseudo_terminal then [] else [a.solution_terminal]) ++ sols, n)
        | Except.error e => Except.error e
      | Except.error e => Except.error e
  | Except.error e => Except.error e

/-- `AgentType.solve`: run `solveAgent`, reverse the stored list when time
flows forward, store it as the `solution` attribute, and register
`'solution'` as time-varying if it is not yet. -/
def solve (a0 : Agent V) : Except String (Agent V) :=
  match solveAgent a0 with
  | Except.ok (a1, sols, _) =>
    let sols1 := if a1.time_flow then sols.reverse else sols
    Except.ok
      { a1 with
        attrs := updAttr a1.attrs "solution" (PyObj.seq sols1)
        time_vary :=
          if "solution" ∈ a1.time_vary then a1.time_vary
          else a1.time_vary ++ ["solution"] }
  | Except.error e => Except.error e

/-- The large sentinel `1e30` returned by `smmObjectiveFxn` for
out-of-bounds parameters. -/
def smmSentinel : ℚ := 10 ^ 30

/-- `SolvingMicroDSOPs.smmObjectiveFxn`, with everything after the bounds
check (parameter assignment, solve, simulation, distance computation)
abstracted as `estimateRest`, a collaborator outside the solver core.  The
direction bookkeeping around it is the source's. -/
def smmObjectiveFxn (beth rho : ℚ) (beth_bound rho_bound : ℚ × ℚ) (agent : Agent V)
    (estimateRest : Agent V → Except String (ℚ × Agent V)) :
    Except String (ℚ × Agent V) :=
  match timeFwd agent with
  | Except.ok a =>
    if beth < beth_bound.1 ∨ beth > beth_bound.2 ∨
        rho < rho_bound.1 ∨ rho > rho_bound.2 then
      Except.ok (smmSentinel, a)
    else
      match estimateRest a with
      | Except.ok (dist, a2) =>
        match (if !agent.time_flow then timeRev a2 else Except.ok a2) with
        | Except.ok a3 => Except.ok (dist, a3)
        | Except.error e => Except.error e
      | Except.error e => Except.error e
  | Except.error e => Except.error e

/-- The value the code binds to a declared argument name: `solution_tp1`
wins (it is written last), then the `t`-th element of a time-varying
sequence, then a time-invariant attribute; any other declared name is a
`KeyError`.  This is the per-name specification that claim C3 compares the
dict machinery against. -/
def argValue (a : Agent V) (t : Nat) (sol_tp1 : V) (n : String) :
    Except String (DV V) :=
  if n = "solution_tp1" then Except.ok (some (PyObj.scalar sol_tp1))
  else if n ∈ a.time_vary then
    match a.attrs n with
    | some (PyObj.seq xs) =>
      match xs.get? t with
      | some x => Except.ok (some (PyObj.scalar x))
      | none => Except.error "IndexError"
    | _ => Except.error "TypeError: not indexable"
  else if n ∈ a.time_inv then
    match a.attrs n with
    | some o => Except.ok (some o)
    | none => Except.error "AttributeError"
  else Except.error "KeyError"

/-- Direct assembly of the declared argument set, name by name. -/
def assembleArgs (a : Agent V) (t : Nat) (sol_tp1 : V) :
    List String → Except String (ArgDict V)
  | [] => Except.ok []
  | n :: rest =>
    match argValue a t sol_tp1 n with
    | Except.ok v =>
      match assembleArgs a t sol_tp1 rest with
      | Except.ok temp => Except.ok ((n, v) :: temp)
      | Except.error e => Except.error e
    | Except.error e => Except.error e

/-- The invariant `solve_dict` satisfies between periods, for names that
the per-period rebinding does not refresh: a time-invariant name (that is
not also time-varying) keeps the attribute value it was built from, and a
name declared nowhere is absent. -/
def DictInv (a : Agent V) (d : SolveDict V) : Prop :=
  ∀ n, n ≠ "solution_tp1" → n ∉ a.time_vary →
    (n ∈ a.time_inv → ∃ o, a.attrs n = some o ∧ d n = some (some o)) ∧
    (n ∉ a.time_inv → d n = none)

/-! ### Concrete fixtures used by witnesses and counterexamples -/

/-- A per-period solver declaring only `solution_tp1` and returning the
next-period solution plus one. -/
def incSolver : Solver Int :=
  (["solution_tp1"], fun temp =>
    match temp.lookup "solution_tp1" with
    | some (some (PyObj.scalar n)) => Except.ok (n + 1)
    | _ => Except.error "bad argument")

/-- A three-period, one-cycle lifecycle agent with terminal solution 0 and
the incrementing solver, parameterised by the starting time direction. -/
def mk3Agent (tf : Bool) : Agent Int where
  solution_terminal := 0
  cycles := 1
  time_flow := tf
  pseudo_terminal := true
  tolerance := 0
  distance := fun _ _ => 0
  time_vary := ["dummy"]
  time_inv := []
  attrs := fun k => if k = "dummy" then some (PyObj.seq [10, 20, 30]) else none
  solveAPeriod := incSolver
  solveAPeriodSeq := []

/-- A two-cycle agent with no time-varying parameters at all (so `T = 1`
on the first solve). -/
def exNoVary : Agent Int where
  solution_terminal := 0
  cycles := 2
  time_flow := false
  pseudo_terminal := true
  tolerance := 0
  distance := fun _ _ => 0
  time_vary := []
  time_inv := []
  attrs := fun _ => none
  solveAPeriod := incSolver
  solveAPeriodSeq := []

/-- An infinite-horizon agent whose distance function never comes within
tolerance: the convergence test always fails. -/
def exNonConv : Agent Int where
  solution_terminal := 0
  cycles := 0
  time_flow := false
  pseudo_terminal := true
  tolerance := 0
  distance := fun _ _ => 1
  time_vary := []
  time_inv := []
  attrs := fun _ => none
  solveAPeriod := ([], fun _ => Except.ok 0)
  solveAPeriodSeq := []

/-- An infinite-horizon agent that converges immediately (distance 0). -/
def exConv : Agent Int where
  solution_terminal := 0
  cycles := 0
  time_flow := false
  pseudo_terminal := true
  tolerance := 0
  distance := fun _ _ => 0
  time_vary := []
  time_inv := []
  attrs := fun _ => none
  solveAPeriod := ([], fun _ => Except.ok 7)
  solveAPeriodSeq := []

/-- The observable relationship between the agent a first `solve` started
from and the agent a second `solve` starts from: everything agrees except
that `'solution'` has been appended to `time_vary` and holds some list. -/
def SolveRel (p q : Agent V) : Prop :=
  q.time_vary = p.time_vary ++ ["solution"] ∧
  (∀ n, n ≠ "solution" → q.attrs n = p.attrs n) ∧
  (∃ xs, q.attrs "solution" = some (PyObj.seq xs)) ∧
  q.time_inv = p.time_inv ∧ q.solveAPeriod = p.solveAPeriod ∧
  q.solveAPeriodSeq = p.solveAPeriodSeq ∧
  q.solution_terminal = p.solution_terminal ∧ q.cycles = p.cycles ∧
  q.pseudo_terminal = p.pseudo_terminal ∧ q.tolerance = p.tolerance ∧
  q.distance = p.distance ∧ q.time_flow = p.time_flow

/-- The side conditions under which registering `'solution'` as
time-varying cannot feed back into a re-solve: the name is fresh and no
per-period solver declares it. -/
def NoSolutionName (p : Agent V) : Prop :=
  "solution" ∉ p.time_vary ∧ "solution" ∉ p.time_inv ∧
  "solution" ∉ p.solveAPeriod.1 ∧ (∀ s ∈ p.solveAPeriodSeq, "solution" ∉ s.1) ∧
  p.time_vary ≠ []

/-! ### Basic lemmas about the time-direction machinery -/

/-- The fields of an agent that no flip ever changes. -/
def SameShape (a b : Agent V) : Prop :=
  b.solution_terminal = a.solution_terminal ∧ b.cycles = a.cycles ∧
  b.pseudo_terminal = a.pseudo_terminal ∧ b.tolerance = a.tolerance ∧
  b.distance = a.distance ∧ b.time_vary = a.time_vary ∧
  b.time_inv = a.time_inv ∧ b.solveAPeriod = a.solveAPeriod

theorem updAttr_self (f : String → Option (PyObj V)) (n : String) (o : PyObj V) :
    updAttr f n o n = some o := by
  unfold updAttr; rw [if_pos rfl]

theorem updAttr_ne (f : String → Option (PyObj V)) {k n : String} (h : k ≠ n) (o : PyObj V) :
    updAttr f n o k = f k := by
  unfold updAttr; rw [if_neg h]

theorem sameShape_refl (a : Agent V) : SameShape a a :=
  ⟨rfl, rfl, rfl, rfl, rfl, rfl, rfl, rfl⟩

theorem sameShape_trans {a b c : Agent V} (h1 : SameShape a b) (h2 : SameShape b c) :
    SameShape a c := by
  obtain ⟨u1, u2, u3, u4, u5, u6, u7, u8⟩ := h1
  obtain ⟨v1, v2, v3, v4, v5, v6, v7, v8⟩ := h2
  exact ⟨v1.trans u1, v2.trans u2, v3.trans u3, v4.trans u4, v5.trans u5,
    v6.trans u6, v7.trans u7, v8.trans u8⟩

/-- What one in-place `list.reverse()` does to an attribute slot. -/
def revPy : Option (PyObj V) → Option (PyObj V)
  | some (PyObj.seq xs) => some (PyObj.seq xs.reverse)
  | o => o

theorem revPy_revPy (o : Option (PyObj V)) : revPy (revPy o) = o := by
  match o with
  | none => rfl
  | some (PyObj.scalar _) => rfl
  | some (PyObj.seq xs) => simp [revPy]

theorem iterate_self_cancel {α : Type _} (f : α → α) (hf : ∀ x, f (f x) = x) :
    ∀ (c : Nat) (x : α), f^[c] (f^[c] x) = x := by
  intro c
  induction c with
  | zero => intro x; rfl
  | succ m ih =>
    intro x
    rw [Function.iterate_succ_apply' f m x, Function.iterate_succ_apply, hf, ih]

theorem revPy_iter_seq (c : Nat) (xs : List V) :
    revPy^[c] (some (PyObj.seq xs)) = some (PyObj.seq (List.reverse^[c] xs)) := by
  induction c generalizing xs with
  | zero => rfl
  | succ m ih =>
    rw [Function.iterate_succ_apply, Function.iterate_succ_apply]
    show revPy^[m] (some (PyObj.seq xs.reverse)) = _
    rw [ih]

theorem revPy_iter_none (c : Nat) : revPy^[c] (none : Option (PyObj V)) = none := by
  induction c with
  | zero => rfl
  | succ m ih => rw [Function.iterate_succ_apply]; exact ih

theorem revPy_iter_scalar (c : Nat) (v : V) :
    revPy^[c] (some (PyObj.scalar v)) = some (PyObj.scalar v) := by
  induction c with
  | zero => rfl
  | succ m ih => rw [Function.iterate_succ_apply]; exact ih

theorem reverse_iter_length {α : Type _} (c : Nat) (xs : List α) :
    (List.reverse^[c] xs).length = xs.length := by
  induction c generalizing xs with
  | zero => rfl
  | succ m ih =>
    rw [Function.iterate_succ_apply]
    rw [ih, List.length_reverse]

theorem reverse_iter_mem {α : Type _} (c : Nat) (xs : List α) (x : α) :
    x ∈ List.reverse^[c] xs ↔ x ∈ xs := by
  induction c generalizing xs with
  | zero => exact Iff.rfl
  | succ m ih =>
    rw [Function.iterate_succ_apply, ih, List.mem_reverse]

/-- How many times one `timeFlip` reverses the attribute stored under `k`
(the per-period solver is kept outside the attribute store). -/
def flipCount (l : List String) (k : String) : Nat :=
  if k = "solveAPeriod" then 0 else l.count k

theorem flipCount_nil (k : String) : flipCount [] k = 0 := by
  unfold flipCount; split <;> simp

theorem flipCount_cons_ne {k n : String} (h : k ≠ n) (rest : List String) :
    flipCount (n :: rest) k = flipCount rest k := by
  unfold flipCount
  split
  · rfl
  · rw [List.count_cons, if_neg (by simp only [beq_iff_eq]; exact fun hh => h hh.symm),
      Nat.add_zero]

theorem flipCount_cons_self {n : String} (h : n ≠ "solveAPeriod") (rest : List String) :
    flipCount (n :: rest) n = flipCount rest n + 1 := by
  unfold flipCount
  rw [if_neg h, if_neg h, List.count_cons, if_pos (by simp)]

theorem count_cons_ne_head {k n : String} (h : k ≠ n) (rest : List String) :
    (n :: rest).count k = rest.count k := by
  rw [List.count_cons, if_neg (by simp only [beq_iff_eq]; exact fun hh => h hh.symm),
      Nat.add_zero]

/-- Full characterisation of a successful `flipNames` pass: shape and flow
are untouched, every attribute is reversed once per occurrence of its name,
the solver list once per occurrence of `'solveAPeriod'`, and every
non-solver name that was flipped had to hold a list to begin with. -/
theorem flipNames_ok_spec :
    ∀ (l : List String) (a b : Agent V), flipNames a l = Except.ok b →
      SameShape a b ∧ b.time_flow = a.time_flow ∧
      (∀ k, b.attrs k = revPy^[flipCount l k] (a.attrs k)) ∧
      b.solveAPeriodSeq = List.reverse^[l.count "solveAPeriod"] a.solveAPeriodSeq ∧
      (∀ n ∈ l, n ≠ "solveAPeriod" → ∃ xs, a.attrs n = some (PyObj.seq xs)) := by
  intro l
  induction l with
  | nil =>
    intro a b h
    cases h
    refine ⟨sameShape_refl a, rfl, fun k => ?_, rfl, by intro n hn; cases hn⟩
    rw [flipCount_nil]
    rfl
  | cons n rest ih =>
    intro a b h
    rw [flipNames] at h
    by_cases hsap : n = "solveAPeriod"
    · rw [show flipName a n =
          Except.ok { a with solveAPeriodSeq := a.solveAPeriodSeq.reverse } from by
        unfold flipName; rw [if_pos hsap]] at h
      obtain ⟨hsh, hfl, hat, hsq, hpre⟩ := ih _ b h
      refine ⟨hsh, hfl, ?_, ?_, ?_⟩
      · intro k
        by_cases hk : k = "solveAPeriod"
        · rw [hat k]
          show revPy^[flipCount rest k] (a.attrs k) = _
          unfold flipCount
          rw [if_pos hk, if_pos hk]
        · rw [hat k]
          show revPy^[flipCount rest k] (a.attrs k) = _
          rw [flipCount_cons_ne (hsap ▸ hk) rest]
      · rw [hsq]
        show List.reverse^[rest.count "solveAPeriod"] a.solveAPeriodSeq.reverse = _
        rw [hsap, List.count_cons_self, ← Function.iterate_succ_apply]
      · intro m hm hmne
        rcases List.mem_cons.mp hm with hm1 | hm2
        · exact absurd (hm1.trans hsap) hmne
        · exact hpre m hm2 hmne
    · cases hcase : a.attrs n with
      | none =>
        rw [show flipName a n = Except.error "AttributeError: no list to reverse" from by
          unfold flipName; rw [if_neg hsap, hcase]] at h
        cases h
      | some o =>
        cases o with
        | scalar v =>
          rw [show flipName a n = Except.error "AttributeError: no list to reverse" from by
            unfold flipName; rw [if_neg hsap, hcase]] at h
          cases h
        | seq xs =>
          rw [show flipName a n =
              Except.ok { a with attrs := updAttr a.attrs n (PyObj.seq xs.reverse) } from by
            unfold flipName; rw [if_neg hsap, hcase]] at h
          obtain ⟨hsh, hfl, hat, hsq, hpre⟩ := ih _ b h
          refine ⟨hsh, hfl, ?_, ?_, ?_⟩
          · intro k
            rw [hat k]
            show revPy^[flipCount rest k] (updAttr a.attrs n (PyObj.seq xs.reverse) k) = _
            by_cases hk : k = n
            · subst hk
              rw [show updAttr a.attrs k (PyObj.seq xs.reverse) k =
                  revPy (a.attrs k) from by unfold updAttr; rw [if_pos rfl, hcase]; rfl]
              rw [← Function.iterate_succ_apply revPy, flipCount_cons_self hsap rest]
            · rw [show updAttr a.attrs n (PyObj.seq xs.reverse) k = a.attrs k from by
                unfold updAttr; rw [if_neg hk]]
              rw [flipCount_cons_ne hk rest]
          · rw [hsq]
            show List.reverse^[rest.count "solveAPeriod"] a.solveAPeriodSeq = _
            rw [count_cons_ne_head (fun hh => hsap hh.symm) rest]
          · intro m hm hmne
            rcases List.mem_cons.mp hm with hm1 | hm2
            · subst hm1; exact ⟨xs, hcase⟩
            · by_cases hmn : m = n
              · subst hmn; exact ⟨xs, hcase⟩
              · obtain ⟨ys, hys⟩ := hpre m hm2 hmne
                refine ⟨ys, ?_⟩
                have hys2 : updAttr a.attrs n (PyObj.seq xs.reverse) m =
                    some (PyObj.seq ys) := hys
                rw [show updAttr a.attrs n (PyObj.seq xs.reverse) m = a.attrs m from by
                  unfold updAttr; rw [if_neg hmn]] at hys2
                exact hys2

/-- A `flipNames` pass succeeds whenever every non-solver name it touches
holds a list. -/
theorem flipNames_ok_of :
    ∀ (l : List String) (a : Agent V),
      (∀ n ∈ l, n ≠ "solveAPeriod" → ∃ xs, a.attrs n = some (PyObj.seq xs)) →
      ∃ b, flipNames a l = Except.ok b := by
  intro l
  induction l with
  | nil => intro a _; exact ⟨a, rfl⟩
  | cons n rest ih =>
    intro a hpre
    by_cases hsap : n = "solveAPeriod"
    · have hf : flipName a n =
          Except.ok { a with solveAPeriodSeq := a.solveAPeriodSeq.reverse } := by
        unfold flipName; rw [if_pos hsap]
      obtain ⟨b, hb⟩ := ih { a with solveAPeriodSeq := a.solveAPeriodSeq.reverse }
        (fun m hm hmne => hpre m (List.mem_cons_of_mem n hm) hmne)
      refine ⟨b, ?_⟩
      rw [flipNames, hf]
      exact hb
    · obtain ⟨xs, hxs⟩ := hpre n (List.mem_cons_self n rest) hsap
      have hf : flipName a n =
          Except.ok { a with attrs := updAttr a.attrs n (PyObj.seq xs.reverse) } := by
        unfold flipName; rw [if_neg hsap, hxs]
      obtain ⟨b, hb⟩ := ih { a with attrs := updAttr a.attrs n (PyObj.seq xs.reverse) }
        (by
          intro m hm hmne
          obtain ⟨ys, hys⟩ := hpre m (List.mem_cons_of_mem n hm) hmne
          by_cases hmn : m = n
          · subst hmn
            exact ⟨xs.reverse, updAttr_self a.attrs m (PyObj.seq xs.reverse)⟩
          · refine ⟨ys, ?_⟩
            show updAttr a.attrs n (PyObj.seq xs.reverse) m = some (PyObj.seq ys)
            rw [updAttr_ne a.attrs hmn]
            exact hys)
      refine ⟨b, ?_⟩
      rw [flipNames, hf]
      exact hb

end HARK

namespace HARK

variable {V : Type}

/-- What a successful `timeFlip` does: shape preserved, flow toggled,
attributes and the solver list reversed per occurrence, and every
non-solver time-varying name held a list. -/
theorem timeFlip_ok_spec {a b : Agent V} (h : timeFlip a = Except.ok b) :
    SameShape a b ∧ b.time_flow = (!a.time_flow) ∧
    (∀ k, b.attrs k = revPy^[flipCount a.time_vary k] (a.attrs k)) ∧
    b.solveAPeriodSeq =
      List.reverse^[a.time_vary.count "solveAPeriod"] a.solveAPeriodSeq ∧
    (∀ n ∈ a.time_vary, n ≠ "solveAPeriod" → ∃ xs, a.attrs n = some (PyObj.seq xs)) := by
  unfold timeFlip at h
  cases hq : flipNames a a.time_vary with
  | error e => rw [hq] at h; cases h
  | ok c =>
    rw [hq] at h
    cases h
    obtain ⟨hsh, hfl, hat, hsq, hpre⟩ := flipNames_ok_spec a.time_vary a c hq
    refine ⟨hsh, ?_, hat, hsq, hpre⟩
    show (!c.time_flow) = (!a.time_flow)
    rw [hfl]

/-- `timeFlip` succeeds whenever every non-solver time-varying name holds a
list. -/
theorem timeFlip_ok_of {a : Agent V}
    (h : ∀ n ∈ a.time_vary, n ≠ "solveAPeriod" → ∃ xs, a.attrs n = some (PyObj.seq xs)) :
    ∃ b, timeFlip a = Except.ok b := by
  obtain ⟨c, hc⟩ := flipNames_ok_of a.time_vary a h
  refine ⟨{ c with time_flow := !c.time_flow }, ?_⟩
  unfold timeFlip
  rw [hc]

/-- Two successive `timeFlip`s cancel observably. -/
theorem timeFlip_timeFlip {a b : Agent V} (h : timeFlip a = Except.ok b) :
    ∃ c, timeFlip b = Except.ok c ∧ SameShape a c ∧ c.time_flow = a.time_flow ∧
      (∀ k, c.attrs k = a.attrs k) ∧ c.solveAPeriodSeq = a.solveAPeriodSeq := by
  obtain ⟨hsh, hfl, hat, hsq, hpre⟩ := timeFlip_ok_spec h
  have hvary : b.time_vary = a.time_vary := hsh.2.2.2.2.2.1
  have hpre2 : ∀ n ∈ b.time_vary, n ≠ "solveAPeriod" →
      ∃ xs, b.attrs n = some (PyObj.seq xs) := by
    intro n hn hne
    rw [hvary] at hn
    obtain ⟨xs, hxs⟩ := hpre n hn hne
    refine ⟨List.reverse^[flipCount a.time_vary n] xs, ?_⟩
    rw [hat n, hxs, revPy_iter_seq]
  obtain ⟨c, hc⟩ := timeFlip_ok_of hpre2
  obtain ⟨hsh2, hfl2, hat2, hsq2, _⟩ := timeFlip_ok_spec hc
  refine ⟨c, hc, sameShape_trans hsh hsh2, ?_, ?_, ?_⟩
  · rw [hfl2, hfl, Bool.not_not]
  · intro k
    rw [hat2 k, hvary, hat k, iterate_self_cancel revPy revPy_revPy]
  · rw [hsq2, hvary, hsq,
      iterate_self_cancel List.reverse (fun xs => List.reverse_reverse xs)]

theorem timeRev_of_false {a : Agent V} (h : a.time_flow = false) :
    timeRev a = Except.ok a := by
  unfold timeRev
  rw [h]
  rfl

theorem timeFwd_of_true {a : Agent V} (h : a.time_flow = true) :
    timeFwd a = Except.ok a := by
  unfold timeFwd
  rw [h]
  rfl

theorem timeRev_flow {a b : Agent V} (h : timeRev a = Except.ok b) :
    b.time_flow = false := by
  unfold timeRev at h
  by_cases hf : a.time_flow = true
  · rw [if_pos hf] at h
    obtain ⟨_, hfl, _, _, _⟩ := timeFlip_ok_spec h
    rw [hfl, hf]
    rfl
  · rw [if_neg hf] at h
    cases h
    cases hb : a.time_flow
    · rfl
    · exact absurd hb hf

theorem timeFwd_flow {a b : Agent V} (h : timeFwd a = Except.ok b) :
    b.time_flow = true := by
  unfold timeFwd at h
  by_cases hf : a.time_flow = true
  · rw [if_pos hf] at h
    cases h
    exact hf
  · rw [if_neg hf] at h
    obtain ⟨_, hfl, _, _, _⟩ := timeFlip_ok_spec h
    cases hb : a.time_flow
    · rw [hfl, hb]
      rfl
    · exact absurd hb hf

theorem timeRev_shape {a b : Agent V} (h : timeRev a = Except.ok b) :
    SameShape a b := by
  unfold timeRev at h
  by_cases hf : a.time_flow = true
  · rw [if_pos hf] at h
    exact (timeFlip_ok_spec h).1
  · rw [if_neg hf] at h
    cases h
    exact sameShape_refl a

theorem timeFwd_shape {a b : Agent V} (h : timeFwd a = Except.ok b) :
    SameShape a b := by
  unfold timeFwd at h
  by_cases hf : a.time_flow = true
  · rw [if_pos hf] at h
    cases h
    exact sameShape_refl a
  · rw [if_neg hf] at h
    exact (timeFlip_ok_spec h).1

theorem periodCount_timeFlip {a b : Agent V} (h : timeFlip a = Except.ok b) :
    periodCount b = periodCount a := by
  obtain ⟨hsh, _, hat, hsq, _⟩ := timeFlip_ok_spec h
  have hvary : b.time_vary = a.time_vary := hsh.2.2.2.2.2.1
  unfold periodCount
  rw [hvary]
  cases hl : a.time_vary with
  | nil => rfl
  | cons name rest =>
    rw [hl] at hsq
    show (if name = "solveAPeriod" then Except.ok b.solveAPeriodSeq.length
        else match b.attrs name with
          | some (PyObj.seq xs) => Except.ok xs.length
          | _ => Except.error "TypeError: object has no len") =
      (if name = "solveAPeriod" then Except.ok a.solveAPeriodSeq.length
        else match a.attrs name with
          | some (PyObj.seq xs) => Except.ok xs.length
          | _ => Except.error "TypeError: object has no len")
    by_cases hn : name = "solveAPeriod"
    · rw [if_pos hn, if_pos hn, hsq, reverse_iter_length]
    · rw [if_neg hn, if_neg hn, hat name]
      have hfc : flipCount a.time_vary name = (a.time_vary).count name := by
        unfold flipCount
        rw [if_neg hn]
      cases ha : a.attrs name with
      | none => rw [revPy_iter_none]
      | some o =>
        cases o with
        | scalar v => rw [revPy_iter_scalar]
        | seq xs =>
          rw [revPy_iter_seq]
          show Except.ok (List.reverse^[flipCount a.time_vary name] xs).length =
            Except.ok xs.length
          rw [reverse_iter_length]

theorem periodCount_timeRev {a b : Agent V} (h : timeRev a = Except.ok b) :
    periodCount b = periodCount a := by
  unfold timeRev at h
  by_cases hf : a.time_flow = true
  · rw [if_pos hf] at h
    exact periodCount_timeFlip h
  · rw [if_neg hf] at h
    cases h
    rfl

end HARK

namespace HARK

variable {V : Type}

/-- A successful cycle loop returns one solution per remaining period. -/
theorem cycleLoop_length (a : Agent V) :
    ∀ (T t : Nat) (d : SolveDict V) (s : V) (ys : List V),
      cycleLoop a T t d s = Except.ok ys → ys.length = T := by
  intro T
  induction T with
  | zero =>
    intro t d s ys h
    cases h
    rfl
  | succ m ih =>
    intro t d s ys h
    rw [cycleLoop] at h
    cases h1 : getSolver a t with
    | error e => simp only [h1] at h; cases h
    | ok solver =>
      simp only [h1] at h
      cases h2 : periodTemp a solver.1 t s d with
      | error e => simp only [h2] at h; cases h
      | ok td =>
        obtain ⟨temp, d1⟩ := td
        simp only [h2] at h
        cases h3 : solver.2 temp with
        | error e => simp only [h3] at h; cases h
        | ok sol_t =>
          simp only [h3] at h
          cases h4 : cycleLoop a m (t + 1) d1 sol_t with
          | error e => simp only [h4] at h; cases h
          | ok rest =>
            simp only [h4] at h
            cases h
            rw [List.length_cons, ih (t + 1) d1 sol_t rest h4]

/-- A successful `solveACycle` returns exactly `periodCount` solutions. -/
theorem solveACycle_ok_length {a : Agent V} {s : V} {ys : List V}
    (h : solveACycle a s = Except.ok ys) : periodCount a = Except.ok ys.length := by
  unfold solveACycle at h
  cases h1 : periodCount a with
  | error e => simp only [h1] at h; cases h
  | ok T =>
    simp only [h1] at h
    cases h2 : initSolveDict a with
    | error e => simp only [h2] at h; cases h
    | ok d =>
      simp only [h2] at h
      rw [cycleLoop_length a T 0 d s ys h]

/-- The finite-horizon loop completes exactly its requested number of
cycles and returns `m * T` solutions. -/
theorem solveFinLoop_spec (a : Agent V) :
    ∀ (m : Nat) (s : V) (ys : List V) (n : Nat),
      solveFinLoop a s m = Except.ok (ys, n) →
      n = m ∧ ∀ T, periodCount a = Except.ok T → ys.length = m * T := by
  intro m
  induction m with
  | zero =>
    intro s ys n h
    cases h
    exact ⟨rfl, fun T _ => by rw [List.length_nil, Nat.zero_mul]⟩
  | succ k ih =>
    intro s ys n h
    rw [solveFinLoop] at h
    cases h1 : solveACycle a s with
    | error e => simp only [h1] at h; cases h
    | ok cyc =>
      simp only [h1] at h
      cases h2 : lastOf cyc with
      | error e => simp only [h2] at h; cases h
      | ok now =>
        simp only [h2] at h
        cases h3 : solveFinLoop a now k with
        | error e => simp only [h3] at h; cases h
        | ok p =>
          obtain ⟨rest, n0⟩ := p
          simp only [h3] at h
          cases h
          obtain ⟨hn, hlen⟩ := ih now rest n0 h3
          refine ⟨by rw [hn], ?_⟩
          intro T hT
          rw [List.length_append, hlen T hT]
          have hc : cyc.length = T := by
            have hx := solveACycle_ok_length h1
            rw [hT] at hx
            exact (Except.ok.injEq _ _).mp hx.symm
          rw [hc, Nat.succ_mul, Nat.add_comm]

/-- Any successful run of the infinite-horizon loop completed at least one
more cycle than it started with, at most `fuel` more, and handed back the
result of an actual cycle solve. -/
theorem solveInfLoop_spec (a : Agent V) :
    ∀ (fuel : Nat) (s : V) (c : Nat) (cyc : List V) (n : Nat),
      solveInfLoop a fuel s c = Except.ok (cyc, n) →
      c + 1 ≤ n ∧ n ≤ c + fuel ∧ ∃ sl, solveACycle a sl = Except.ok cyc := by
  intro fuel
  induction fuel with
  | zero => intro s c cyc n h; cases h
  | succ f ih =>
    intro s c cyc n h
    rw [solveInfLoop] at h
    cases h1 : solveACycle a s with
    | error e => simp only [h1] at h; cases h
    | ok cyc0 =>
      simp only [h1] at h
      cases h2 : lastOf cyc0 with
      | error e => simp only [h2] at h; cases h
      | ok now =>
        simp only [h2] at h
        by_cases hgo : (if 0 < c then !(isSameThing a now s) && decide (c < 5000)
            else true) = true
        · rw [if_pos hgo] at h
          obtain ⟨hlo, hhi, hsl⟩ := ih now (c + 1) cyc n h
          exact ⟨Nat.le_trans (Nat.le_succ _) hlo,
            by rw [Nat.add_succ, ← Nat.succ_add]; exact hhi, hsl⟩
        · rw [if_neg hgo] at h
          cases h
          refine ⟨Nat.le_refl _, ?_, ⟨s, h1⟩⟩
          rw [Nat.add_succ]
          exact Nat.succ_le_succ (Nat.le_add_right c f)

end HARK

namespace HARK

variable {V : Type}

/-- When the convergence test never succeeds but every cycle solve does,
the infinite-horizon loop entered at a positive completed count runs until
the count-before-increment reaches the 5000 ceiling, so the final count is
5001. -/
theorem solveInfLoop_runs_out {a : Agent V}
    (hns : ∀ x y, isSameThing a x y = false)
    (hc : ∀ s : V, ∃ cyc z, solveACycle a s = Except.ok cyc ∧ lastOf cyc = Except.ok z) :
    ∀ (fuel : Nat), 1 ≤ fuel → ∀ (c : Nat) (s : V), 1 ≤ c → c + fuel = 5001 →
      ∃ cyc, solveInfLoop a fuel s c = Except.ok (cyc, 5001) := by
  intro fuel
  induction fuel with
  | zero => intro h0; exact absurd h0 (by decide)
  | succ f ih =>
    intro _ c s hc1 hsum
    obtain ⟨cyc0, z, hcy, hll⟩ := hc s
    rw [solveInfLoop]
    simp only [hcy, hll]
    rw [hns z s]
    simp only [Bool.not_false, Bool.true_and]
    have h0c : 0 < c := hc1
    rw [if_pos h0c]
    cases f with
    | zero =>
      have hc5 : ¬ c < 5000 := by omega
      rw [decide_eq_false hc5]
      rw [if_neg (by decide : ¬ (false = true))]
      refine ⟨cyc0, ?_⟩
      have : c + 1 = 5001 := by omega
      rw [this]
    | succ g =>
      rw [decide_eq_true (by omega : c < 5000)]
      rw [if_pos rfl]
      exact ih (by omega) (c + 1) z (by omega) (by omega)

/-- Entered from the top (zero completed cycles), a never-converging loop
with total solvers completes exactly 5001 cycles. -/
theorem solveInfLoop_entry {a : Agent V}
    (hns : ∀ x y, isSameThing a x y = false)
    (hc : ∀ s : V, ∃ cyc z, solveACycle a s = Except.ok cyc ∧ lastOf cyc = Except.ok z)
    (s : V) :
    ∃ cyc, solveInfLoop a 5001 s 0 = Except.ok (cyc, 5001) := by
  obtain ⟨cyc0, z, hcy, hll⟩ := hc s
  obtain ⟨cyc, hrest⟩ := solveInfLoop_runs_out hns hc 5000 (by decide) 1 z (by decide) (by decide)
  refine ⟨cyc, ?_⟩
  show solveInfLoop a (5000 + 1) s 0 = _
  rw [solveInfLoop]
  simp only [hcy, hll]
  rw [if_neg (by decide : ¬ 0 < 0)]
  rw [if_pos rfl]
  exact hrest

/-- Case analysis of a successful `solveAgent`: the agent is first forced
backward, the loop for the matching horizon runs, and the direction is
restored. -/
theorem solveAgent_ok_cases {a0 a2 : Agent V} {sols : List V} {n : Nat}
    (h : solveAgent a0 = Except.ok (a2, sols, n)) :
    ∃ a, timeRev a0 = Except.ok a ∧
      ((a.cycles = 0 ∧
          ∃ cyc, solveInfLoop a 5001 a.solution_terminal 0 = Except.ok (cyc, n) ∧
            sols = cyc) ∨
       (a.cycles ≠ 0 ∧
          ∃ ys, solveFinLoop a a.solution_terminal a.cycles = Except.ok (ys, n) ∧
            sols = (if a.pseudo_terminal then [] else [a.solution_terminal]) ++ ys)) ∧
      (if a0.time_flow then timeFwd a else Except.ok a) = Except.ok a2 := by
  unfold solveAgent at h
  cases h1 : timeRev a0 with
  | error e => simp only [h1] at h; cases h
  | ok a =>
    simp only [h1] at h
    refine ⟨a, rfl, ?_⟩
    by_cases hcy : a.cycles = 0
    · rw [if_pos hcy] at h
      cases h2 : solveInfLoop a 5001 a.solution_terminal 0 with
      | error e => simp only [h2] at h; cases h
      | ok p =>
        obtain ⟨cyc, m⟩ := p
        simp only [h2] at h
        cases h3 : (if a0.time_flow then timeFwd a else Except.ok a) with
        | error e => simp only [h3] at h; cases h
        | ok a2x =>
          simp only [h3] at h
          cases h
          exact ⟨Or.inl ⟨hcy, ⟨_, rfl, rfl⟩⟩, rfl⟩
    · rw [if_neg hcy] at h
      cases h2 : solveFinLoop a a.solution_terminal a.cycles with
      | error e => simp only [h2] at h; cases h
      | ok p =>
        obtain ⟨ys, m⟩ := p
        simp only [h2] at h
        cases h3 : (if a0.time_flow then timeFwd a else Except.ok a) with
        | error e => simp only [h3] at h; cases h
        | ok a2x =>
          simp only [h3] at h
          cases h
          exact ⟨Or.inr ⟨hcy, ⟨_, rfl, rfl⟩⟩, rfl⟩

end HARK

namespace HARK

variable {V : Type}

/-- What a successful `AgentType.solve` does with the result of
`solveAgent`. -/
theorem solve_ok_cases {a0 out : Agent V} (h : solve a0 = Except.ok out) :
    ∃ a1 sols n, solveAgent a0 = Except.ok (a1, sols, n) ∧
      out = { a1 with
        attrs := updAttr a1.attrs "solution"
          (PyObj.seq (if a1.time_flow then sols.reverse else sols))
        time_vary := if "solution" ∈ a1.time_vary then a1.time_vary
          else a1.time_vary ++ ["solution"] } := by
  unfold solve at h
  cases h1 : solveAgent a0 with
  | error e => simp only [h1] at h; cases h
  | ok p =>
    obtain ⟨a1, sols, n⟩ := p
    simp only [h1] at h
    cases h
    exact ⟨a1, sols, n, rfl, rfl⟩

/-- Claim C1: for every agent with `cycles = C > 0`, period count `T`, and
a succeeding solve, the stored solution list has length `C*T + 1` when the
terminal solution is included in output (`pseudo_terminal` false) and
`C*T` otherwise, and the cycle loop ran exactly `C` times. -/
theorem claim_C1_finite_horizon_length {a out : Agent V} {T : Nat}
    (hC : 0 < a.cycles) (hT : periodCount a = Except.ok T)
    (h : solve a = Except.ok out) :
    ∃ a1 raw n, solveAgent a = Except.ok (a1, raw, n) ∧ n = a.cycles ∧
      ∃ sols, out.attrs "solution" = some (PyObj.seq sols) ∧
        sols.length = a.cycles * T + (if a.pseudo_terminal then 0 else 1) := by
  obtain ⟨a1, raw, n, hsa, hout⟩ := solve_ok_cases h
  obtain ⟨a', hrev, hbr, _⟩ := solveAgent_ok_cases hsa
  have hsh := timeRev_shape hrev
  have hcy : a'.cycles = a.cycles := hsh.2.1
  have hps : a'.pseudo_terminal = a.pseudo_terminal := hsh.2.2.1
  rcases hbr with ⟨h0, _⟩ | ⟨_, ys, hfin, hsols⟩
  · rw [hcy] at h0
    omega
  · obtain ⟨hn, hlenf⟩ := solveFinLoop_spec a' a'.cycles a'.solution_terminal ys n hfin
    have hT' : periodCount a' = Except.ok T := by rw [periodCount_timeRev hrev, hT]
    have hys : ys.length = a'.cycles * T := hlenf T hT'
    refine ⟨a1, raw, n, hsa, by rw [hn, hcy], ?_⟩
    refine ⟨if a1.time_flow then raw.reverse else raw, ?_, ?_⟩
    · rw [hout]
      show updAttr a1.attrs "solution"
        (PyObj.seq (if a1.time_flow then raw.reverse else raw)) "solution" = _
      exact updAttr_self _ _ _
    · have hraw : raw.length = a.cycles * T + (if a.pseudo_terminal then 0 else 1) := by
        rw [hsols, List.length_append, hys, hcy]
        by_cases hp : a.pseudo_terminal = true
        · have hp2 : a'.pseudo_terminal = true := hps.trans hp
          rw [if_pos hp, if_pos hp2, List.length_nil, Nat.zero_add, Nat.add_zero]
        · have hp2 : ¬ (a'.pseudo_terminal = true) := fun hh => hp (hps.symm.trans hh)
          rw [if_neg hp, if_neg hp2, List.length_singleton]
          omega
      by_cases hf : a1.time_flow = true
      · rw [if_pos hf, List.length_reverse, hraw]
      · rw [if_neg hf, hraw]

/-- Claim C2: for every infinite-horizon agent (`cycles = 0`) whose solve
succeeds, the stored list is (up to the direction-restoring reversal)
exactly the final completed cycle, with length `T` — never a separate
terminal entry, whatever `pseudo_terminal` is. -/
theorem claim_C2_infinite_horizon_length {a out : Agent V} {T : Nat}
    (h0 : a.cycles = 0) (hT : periodCount a = Except.ok T)
    (h : solve a = Except.ok out) :
    ∃ a1 cyc n, solveAgent a = Except.ok (a1, cyc, n) ∧
      out.attrs "solution" =
        some (PyObj.seq (if a1.time_flow then cyc.reverse else cyc)) ∧
      cyc.length = T ∧
      ∃ a' sl, timeRev a = Except.ok a' ∧ solveACycle a' sl = Except.ok cyc := by
  obtain ⟨a1, raw, n, hsa, hout⟩ := solve_ok_cases h
  obtain ⟨a', hrev, hbr, _⟩ := solveAgent_ok_cases hsa
  have hsh := timeRev_shape hrev
  have hcy : a'.cycles = a.cycles := hsh.2.1
  rcases hbr with ⟨_, cyc, hloop, hsols⟩ | ⟨hne, _⟩
  · obtain ⟨_, _, sl, hsl⟩ := solveInfLoop_spec a' 5001 a'.solution_terminal 0 cyc n hloop
    have hT' : periodCount a' = Except.ok T := by rw [periodCount_timeRev hrev, hT]
    have hlen : cyc.length = T := by
      have hx := solveACycle_ok_length hsl
      rw [hT'] at hx
      exact (Except.ok.injEq _ _).mp hx.symm
    refine ⟨a1, raw, n, hsa, ?_, ?_, a', sl, hrev, ?_⟩
    · rw [hout]
      show updAttr a1.attrs "solution"
        (PyObj.seq (if a1.time_flow then raw.reverse else raw)) "solution" = _
      exact updAttr_self _ _ _
    · rw [hsols, hlen]
    · rw [← hsols] at hsl
      exact hsl
  · rw [hcy] at hne
    exact absurd h0 hne

/-- Claim C7: in the infinite-horizon case the first cycle runs
unconditionally and convergence is only tested from the second cycle on,
so a run that terminates by convergence completed at least two cycles. -/
theorem claim_C7_first_cycle_unconditional {a a1 : Agent V} {sols : List V} {n : Nat}
    (h0 : a.cycles = 0) (h : solveAgent a = Except.ok (a1, sols, n)) : 2 ≤ n := by
  obtain ⟨a', hrev, hbr, _⟩ := solveAgent_ok_cases h
  have hcy : a'.cycles = a.cycles := (timeRev_shape hrev).2.1
  rcases hbr with ⟨_, cyc, hloop, _⟩ | ⟨hne, _⟩
  · have hloop' : solveInfLoop a' (5000 + 1) a'.solution_terminal 0 =
        Except.ok (cyc, n) := hloop
    rw [solveInfLoop] at hloop'
    cases h1 : solveACycle a' a'.solution_terminal with
    | error e => simp only [h1] at hloop'; cases hloop'
    | ok cyc0 =>
      simp only [h1] at hloop'
      cases h2 : lastOf cyc0 with
      | error e => simp only [h2] at hloop'; cases hloop'
      | ok now =>
        simp only [h2] at hloop'
        rw [if_neg (by decide : ¬ 0 < 0)] at hloop'
        rw [if_pos rfl] at hloop'
        obtain ⟨hlo, _, _⟩ := solveInfLoop_spec a' 5000 now 1 cyc n hloop'
        exact hlo
  · rw [hcy] at hne
    exact absurd h0 hne

end HARK

namespace HARK

/-- Witness for C1: the concrete three-period, one-cycle agent. -/
theorem claim_C1_witness :
    0 < (mk3Agent false).cycles ∧
    ∃ out, solve (mk3Agent false) = Except.ok out ∧
      ∃ a1 raw n, solveAgent (mk3Agent false) = Except.ok (a1, raw, n) ∧
        n = (mk3Agent false).cycles ∧
        ∃ sols, out.attrs "solution" = some (PyObj.seq sols) ∧
          sols.length = (mk3Agent false).cycles * 3 +
            (if (mk3Agent false).pseudo_terminal then 0 else 1) := by
  obtain ⟨out, hout⟩ : ∃ out, solve (mk3Agent false) = Except.ok out := ⟨_, rfl⟩
  exact ⟨by decide, out, hout,
    claim_C1_finite_horizon_length (by decide) (by rfl) hout⟩

/-- Witness for C2: the concrete immediately-converging infinite-horizon
agent (period count 1). -/
theorem claim_C2_witness :
    exConv.cycles = 0 ∧
    ∃ out, solve exConv = Except.ok out ∧
      ∃ a1 cyc n, solveAgent exConv = Except.ok (a1, cyc, n) ∧
        out.attrs "solution" =
          some (PyObj.seq (if a1.time_flow then cyc.reverse else cyc)) ∧
        cyc.length = 1 ∧
        ∃ a' sl, timeRev exConv = Except.ok a' ∧ solveACycle a' sl = Except.ok cyc := by
  obtain ⟨out, hout⟩ : ∃ out, solve exConv = Except.ok out := ⟨_, rfl⟩
  exact ⟨rfl, out, hout, claim_C2_infinite_horizon_length rfl (by rfl) hout⟩

/-- Witness for C7: the converging infinite-horizon agent still completes
at least two cycles. -/
theorem claim_C7_witness :
    exConv.cycles = 0 ∧
    ∃ a1 sols n, solveAgent exConv = Except.ok (a1, sols, n) ∧ 2 ≤ n := by
  obtain ⟨p, hp⟩ : ∃ p, solveAgent exConv = Except.ok p := ⟨_, rfl⟩
  refine ⟨rfl, p.1, p.2.1, p.2.2, ?_, ?_⟩
  · rw [hp]
  · exact claim_C7_first_cycle_unconditional rfl (by rw [hp])

end HARK

namespace HARK

variable {V : Type}

/-- Forward composition of `solveAgent` in the infinite-horizon branch. -/
theorem solveAgent_build_inf {a b : Agent V} {cyc : List V} {n : Nat}
    (hrev : timeRev a = Except.ok b) (h0 : b.cycles = 0)
    (hloop : solveInfLoop b 5001 b.solution_terminal 0 = Except.ok (cyc, n))
    {a2 : Agent V} (hres : (if a.time_flow then timeFwd b else Except.ok b) = Except.ok a2) :
    solveAgent a = Except.ok (a2, cyc, n) := by
  unfold solveAgent
  rw [hrev]
  dsimp only
  rw [if_pos h0, hloop]
  dsimp only
  rw [hres]

/-- Forward composition of `solveAgent` in the finite-horizon branch. -/
theorem solveAgent_build_fin {a b : Agent V} {ys : List V} {n : Nat}
    (hrev : timeRev a = Except.ok b) (h0 : ¬ b.cycles = 0)
    (hloop : solveFinLoop b b.solution_terminal b.cycles = Except.ok (ys, n))
    {a2 : Agent V} (hres : (if a.time_flow then timeFwd b else Except.ok b) = Except.ok a2) :
    solveAgent a = Except.ok
      (a2, (if b.pseudo_terminal then [] else [b.solution_terminal]) ++ ys, n) := by
  unfold solveAgent
  rw [hrev]
  dsimp only
  rw [if_neg h0, hloop]
  dsimp only
  rw [hres]

/-- Forward composition of `AgentType.solve` from a successful `solveAgent`. -/
theorem solve_build {a a1 : Agent V} {sols : List V} {n : Nat}
    (h : solveAgent a = Except.ok (a1, sols, n)) :
    solve a = Except.ok { a1 with
      attrs := updAttr a1.attrs "solution"
        (PyObj.seq (if a1.time_flow then sols.reverse else sols))
      time_vary := if "solution" ∈ a1.time_vary then a1.time_vary
        else a1.time_vary ++ ["solution"] } := by
  unfold solve
  rw [h]

/-- Counterexample to C4 as stated: with a convergence predicate that
never reports "same", the driver completes 5001 cycles, not at most 5000
— the ceiling test uses the counter before its increment. -/
theorem claim_C4_counterexample :
    ∃ a1 cyc, solveAgent exNonConv = Except.ok (a1, cyc, 5001) ∧ ¬ (5001 ≤ 5000) := by
  have hns : ∀ x y : Int, isSameThing exNonConv x y = false :=
    fun x y => (by decide : decide ((1 : ℚ) ≤ 0) = false)
  have hc : ∀ s : Int, ∃ cyc z, solveACycle exNonConv s = Except.ok cyc ∧
      lastOf cyc = Except.ok z := fun s => ⟨[0], 0, rfl, rfl⟩
  obtain ⟨cyc, hloop⟩ := solveInfLoop_entry hns hc exNonConv.solution_terminal
  have hres : (if exNonConv.time_flow then timeFwd exNonConv
      else Except.ok exNonConv) = Except.ok exNonConv := by
    rw [if_neg (by decide : ¬ (exNonConv.time_flow = true))]
  exact ⟨exNonConv, cyc,
    solveAgent_build_inf (timeRev_of_false rfl) rfl hloop hres, by decide⟩

/-- Claim C4 amended: for an infinite-horizon agent whose convergence
predicate never reports "same" and whose cycle solves always succeed, the
driver loop executes exactly 5001 cycles — one more than the nominal
`max_cycles = 5000`, because the ceiling test reads the counter before its
increment — and then terminates silently, returning the last cycle's
result; and no infinite-horizon run whatsoever exceeds 5001 cycles. -/
theorem claim_C4_cycle_ceiling {a b : Agent V} (hrev : timeRev a = Except.ok b)
    (h0 : a.cycles = 0)
    (hns : ∀ x y, isSameThing b x y = false)
    (hc : ∀ s : V, ∃ cyc z, solveACycle b s = Except.ok cyc ∧ lastOf cyc = Except.ok z)
    (hres : ∃ a2, (if a.time_flow then timeFwd b else Except.ok b) = Except.ok a2) :
    (∃ a2 cyc, solveAgent a = Except.ok (a2, cyc, 5001) ∧
      ∃ sl, solveACycle b sl = Except.ok cyc) ∧
    (∀ a2 sols n, solveAgent a = Except.ok (a2, sols, n) → n ≤ 5001) := by
  have hb0 : b.cycles = 0 := ((timeRev_shape hrev).2.1).trans h0
  obtain ⟨a2, hr⟩ := hres
  obtain ⟨cyc, hloop⟩ := solveInfLoop_entry hns hc b.solution_terminal
  obtain ⟨_, _, sl, hsl⟩ := solveInfLoop_spec b 5001 b.solution_terminal 0 cyc 5001 hloop
  refine ⟨⟨a2, cyc, solveAgent_build_inf hrev hb0 hloop hr, sl, hsl⟩, ?_⟩
  intro a2x solsx nx hx
  obtain ⟨a', hrev', hbr, _⟩ := solveAgent_ok_cases hx
  have hba : a' = b := by
    rw [hrev] at hrev'
    exact ((Except.ok.injEq _ _).mp hrev').symm
  subst hba
  rcases hbr with ⟨_, cycx, hloopx, _⟩ | ⟨hne, _⟩
  · obtain ⟨_, hhi, _⟩ := solveInfLoop_spec a' 5001 a'.solution_terminal 0 cycx nx hloopx
    exact hhi
  · exact absurd hb0 hne

/-- Witness for the amended C4 at the concrete non-convergent agent. -/
theorem claim_C4_witness :
    (∃ a2 cyc, solveAgent exNonConv = Except.ok (a2, cyc, 5001) ∧
      ∃ sl, solveACycle exNonConv sl = Except.ok cyc) ∧
    (∀ a2 sols n, solveAgent exNonConv = Except.ok (a2, sols, n) → n ≤ 5001) := by
  exact claim_C4_cycle_ceiling (timeRev_of_false rfl) rfl
    (fun x y => (by decide : decide ((1 : ℚ) ≤ 0) = false))
    (fun s => ⟨[0], 0, rfl, rfl⟩)
    ⟨exNonConv, by rw [if_neg (by decide : ¬ (exNonConv.time_flow = true))]⟩

end HARK

namespace HARK

variable {V : Type}

/-- Counterexample to C5 as stated: with the 3-period incrementing model
and `time_flow = true` at entry, the stored solution list is `[3, 2, 1]`,
not `[1, 2, 3]`. -/
theorem claim_C5_counterexample :
    ∃ out, solve (mk3Agent true) = Except.ok out ∧
      out.attrs "solution" = some (PyObj.seq ([3, 2, 1] : List Int)) ∧
      some (PyObj.seq ([3, 2, 1] : List Int)) ≠ some (PyObj.seq ([1, 2, 3] : List Int)) := by
  refine ⟨_, rfl, ?_, by decide⟩
  rfl

/-- Claim C5 amended: the raw backward-computed list `[1, 2, 3]` is stored
as-is when `time_flow` starts false (the agent's reverse-chronological
convention) and reversed to `[3, 2, 1]` when it starts true, so the stored
list depends on the starting direction. -/
theorem claim_C5_output_by_direction :
    (∃ out, solve (mk3Agent false) = Except.ok out ∧
      out.attrs "solution" = some (PyObj.seq ([1, 2, 3] : List Int))) ∧
    (∃ out, solve (mk3Agent true) = Except.ok out ∧
      out.attrs "solution" = some (PyObj.seq ([3, 2, 1] : List Int))) := by
  exact ⟨⟨_, rfl, rfl⟩, ⟨_, rfl, rfl⟩⟩

/-- Counterexample to C6 as stated: starting from `time_flow = false`,
`timeRev()` is a no-op and the following `timeFwd()` flips, so the round
trip changes the direction flag and reverses the time-varying sequence. -/
theorem claim_C6_counterexample :
    ∃ b c, timeRev (mk3Agent false) = Except.ok b ∧ timeFwd b = Except.ok c ∧
      c.time_flow ≠ (mk3Agent false).time_flow ∧
      c.attrs "dummy" ≠ (mk3Agent false).attrs "dummy" := by
  refine ⟨_, _, rfl, rfl, by decide, by decide⟩

/-- Claim C6 amended: each forcing call flips at most once, and the round
trip restores the agent exactly when the second call's target agrees with
the starting direction: `timeRev(); timeFwd()` restores an agent that
started with time flowing forward, and `timeFwd(); timeRev()` restores one
that started with time flowing backward. -/
theorem claim_C6_round_trip {a : Agent V}
    (hflip : ∀ n ∈ a.time_vary, n ≠ "solveAPeriod" →
      ∃ xs, a.attrs n = some (PyObj.seq xs)) :
    (a.time_flow = true →
      ∃ b c, timeRev a = Except.ok b ∧ timeFwd b = Except.ok c ∧
        c.time_flow = a.time_flow ∧ (∀ k, c.attrs k = a.attrs k) ∧
        c.solveAPeriodSeq = a.solveAPeriodSeq ∧ SameShape a c) ∧
    (a.time_flow = false →
      ∃ b c, timeFwd a = Except.ok b ∧ timeRev b = Except.ok c ∧
        c.time_flow = a.time_flow ∧ (∀ k, c.attrs k = a.attrs k) ∧
        c.solveAPeriodSeq = a.solveAPeriodSeq ∧ SameShape a c) := by
  constructor
  · intro hfl
    obtain ⟨b, hb⟩ := timeFlip_ok_of hflip
    obtain ⟨c, hc, hsh, hcf, hca, hcs⟩ := timeFlip_timeFlip hb
    have hbf : b.time_flow = false := by
      rw [(timeFlip_ok_spec hb).2.1, hfl]
      rfl
    refine ⟨b, c, ?_, ?_, hcf, hca, hcs, hsh⟩
    · unfold timeRev
      rw [if_pos hfl]
      exact hb
    · unfold timeFwd
      rw [if_neg (by rw [hbf]; exact Bool.false_ne_true)]
      exact hc
  · intro hfl
    obtain ⟨b, hb⟩ := timeFlip_ok_of hflip
    obtain ⟨c, hc, hsh, hcf, hca, hcs⟩ := timeFlip_timeFlip hb
    have hbf : b.time_flow = true := by
      rw [(timeFlip_ok_spec hb).2.1, hfl]
      rfl
    refine ⟨b, c, ?_, ?_, hcf, hca, hcs, hsh⟩
    · unfold timeFwd
      rw [if_neg (by rw [hfl]; exact Bool.false_ne_true)]
      exact hb
    · unfold timeRev
      rw [if_pos hbf]
      exact hc

/-- Witness for the amended C6 at the concrete forward-flowing agent. -/
theorem claim_C6_witness :
    ∃ b c, timeRev (mk3Agent true) = Except.ok b ∧ timeFwd b = Except.ok c ∧
      c.time_flow = (mk3Agent true).time_flow ∧
      c.attrs "dummy" = (mk3Agent true).attrs "dummy" := by
  have h := claim_C6_round_trip (a := mk3Agent true)
    (by
      intro n hn hne
      have hd : n = "dummy" := List.mem_singleton.mp hn
      subst hd
      exact ⟨[10, 20, 30], rfl⟩)
  obtain ⟨b, c, h1, h2, h3, h4, _, _⟩ := h.1 rfl
  exact ⟨b, c, h1, h2, h3, h4 "dummy"⟩

end HARK

namespace HARK

variable {V : Type}

theorem foldl_updAttr_not_mem :
    ∀ (kvs : List (String × PyObj V)) (f : String → Option (PyObj V)) (k : String),
      k ∉ kvs.map Prod.fst →
      kvs.foldl (fun g kv => updAttr g kv.1 kv.2) f k = f k := by
  intro kvs
  induction kvs with
  | nil => intro f k _; rfl
  | cons kv rest ih =>
    intro f k hk
    rw [List.foldl_cons]
    have hk1 : k ≠ kv.1 := fun hh => hk (by rw [List.map_cons]; exact hh ▸ List.mem_cons_self _ _)
    have hk2 : k ∉ rest.map Prod.fst := fun hh => hk (by rw [List.map_cons]; exact List.mem_cons_of_mem _ hh)
    rw [ih (updAttr f kv.1 kv.2) k hk2]
    exact updAttr_ne f hk1 kv.2

theorem foldl_updAttr_mem :
    ∀ (kvs : List (String × PyObj V)) (f : String → Option (PyObj V)) (k : String) (v : PyObj V),
      (kvs.map Prod.fst).Nodup → (k, v) ∈ kvs →
      kvs.foldl (fun g kv => updAttr g kv.1 kv.2) f k = some v := by
  intro kvs
  induction kvs with
  | nil => intro f k v _ hm; cases hm
  | cons kv rest ih =>
    intro f k v hnd hm
    rw [List.map_cons, List.nodup_cons] at hnd
    rw [List.foldl_cons]
    rcases List.mem_cons.mp hm with hm1 | hm2
    · have hk : k = kv.1 := by rw [← hm1]
      have hv : v = kv.2 := by rw [← hm1]
      subst hk
      subst hv
      rw [foldl_updAttr_not_mem rest (updAttr f kv.1 kv.2) kv.1 hnd.1]
      exact updAttr_self f kv.1 kv.2
    · exact ih (updAttr f kv.1 kv.2) k v hnd.2 hm2

/-- Claim C9: after `assignParameters(mapping)` every key of the mapping is
an attribute holding exactly its mapped value, every attribute not named
by the mapping is unchanged, and no other field of the agent changes. -/
theorem claim_C9_assignParameters (a : Agent V) (kvs : List (String × PyObj V))
    (hnd : (kvs.map Prod.fst).Nodup) :
    (∀ k v, (k, v) ∈ kvs → (assignParameters a kvs).attrs k = some v) ∧
    (∀ k, k ∉ kvs.map Prod.fst → (assignParameters a kvs).attrs k = a.attrs k) ∧
    SameShape a (assignParameters a kvs) ∧
    (assignParameters a kvs).time_flow = a.time_flow ∧
    (assignParameters a kvs).solveAPeriodSeq = a.solveAPeriodSeq := by
  refine ⟨?_, ?_, sameShape_refl a, rfl, rfl⟩
  · intro k v hm
    exact foldl_updAttr_mem kvs a.attrs k v hnd hm
  · intro k hk
    exact foldl_updAttr_not_mem kvs a.attrs k hk

/-- Witness for C9 at a concrete two-entry mapping. -/
theorem claim_C9_witness :
    (assignParameters exNoVary
        [("x", PyObj.scalar 5), ("y", PyObj.seq [1, 2])]).attrs "x" =
      some (PyObj.scalar (5 : Int)) ∧
    (assignParameters exNoVary
        [("x", PyObj.scalar 5), ("y", PyObj.seq [1, 2])]).attrs "z" =
      exNoVary.attrs "z" := by
  have h := claim_C9_assignParameters exNoVary
    [("x", PyObj.scalar 5), ("y", PyObj.seq [1, 2])] (by decide)
  exact ⟨h.1 "x" (PyObj.scalar 5) (List.mem_cons_self _ _),
    h.2.1 "z" (by decide)⟩

/-- Claim C10: with `beth` or `rho` out of bounds, `smmObjectiveFxn`
returns the `1e30` sentinel without invoking the solve/simulate stage —
the result does not depend on it at all — but only after having already
forced the agent's time direction forward, and the early return does not
restore the original direction: the returned agent always has
`time_flow = true`, whatever it was at entry. -/
theorem claim_C10_bounds_early_return {beth rho : ℚ} {bb rb : ℚ × ℚ} (a : Agent V)
    (f g : Agent V → Except String (ℚ × Agent V))
    (h : beth < bb.1 ∨ beth > bb.2 ∨ rho < rb.1 ∨ rho > rb.2) :
    smmObjectiveFxn beth rho bb rb a f =
      (timeFwd a).map (fun x => (smmSentinel, x)) ∧
    smmObjectiveFxn beth rho bb rb a f = smmObjectiveFxn beth rho bb rb a g ∧
    (∀ p, smmObjectiveFxn beth rho bb rb a f = Except.ok p →
      p.2.time_flow = true) := by
  have key : ∀ fx : Agent V → Except String (ℚ × Agent V),
      smmObjectiveFxn beth rho bb rb a fx =
        (timeFwd a).map (fun x => (smmSentinel, x)) := by
    intro fx
    unfold smmObjectiveFxn
    cases h1 : timeFwd a with
    | error e => rfl
    | ok x =>
      dsimp only
      rw [if_pos h]
      rfl
  refine ⟨key f, (key f).trans (key g).symm, ?_⟩
  intro p hp
  rw [key f] at hp
  cases h1 : timeFwd a with
  | error e => rw [h1] at hp; cases hp
  | ok x =>
    rw [h1] at hp
    simp only [Except.map] at hp
    cases hp
    exact timeFwd_flow h1

/-- Witness for C10 at concrete out-of-bounds parameters and an agent
whose time initially flows backward. -/
theorem claim_C10_witness :
    smmObjectiveFxn 0 0 (1, 2) (1, 2) exNoVary (fun x => Except.ok (0, x)) =
      (timeFwd exNoVary).map (fun x => (smmSentinel, x)) ∧
    smmObjectiveFxn 0 0 (1, 2) (1, 2) exNoVary (fun x => Except.ok (0, x)) =
      smmObjectiveFxn 0 0 (1, 2) (1, 2) exNoVary (fun x => Except.ok (1, x)) ∧
    (∀ p, smmObjectiveFxn 0 0 (1, 2) (1, 2) exNoVary (fun x => Except.ok (0, x)) =
        Except.ok p → p.2.time_flow = true) := by
  exact claim_C10_bounds_early_return exNoVary
    (fun x => Except.ok (0, x)) (fun x => Except.ok (1, x))
    (Or.inl (by norm_num))

end HARK

namespace HARK

variable {V : Type}

theorem setKey_self (d : SolveDict V) (k : String) (v : DV V) : setKey d k v k = some v := by
  unfold setKey
  rw [if_pos rfl]

theorem setKey_ne (d : SolveDict V) {n k : String} (h : n ≠ k) (v : DV V) :
    setKey d k v n = d n := by
  unfold setKey
  rw [if_neg h]

theorem updateVary_not_arg :
    ∀ (l : List String) (a : Agent V) (args : List String) (t : Nat) (d d' : SolveDict V),
      updateVary a args t d l = Except.ok d' → ∀ n, n ∉ args → d' n = d n := by
  intro l
  induction l with
  | nil =>
    intro a args t d d' h n _
    cases h
    rfl
  | cons m rest ih =>
    intro a args t d d' h n hn
    rw [updateVary] at h
    by_cases hm : m ∈ args
    · rw [if_pos hm] at h
      cases ha : a.attrs m with
      | none => simp only [ha] at h; cases h
      | some o =>
        cases o with
        | scalar v => simp only [ha] at h; cases h
        | seq xs =>
          simp only [ha] at h
          cases hg : xs.get? t with
          | none => simp only [hg] at h; cases h
          | some x =>
            simp only [hg] at h
            rw [ih a args t _ d' h n hn]
            exact setKey_ne d (fun hh => hn (by rw [hh]; exact hm)) _
    · rw [if_neg hm] at h
      exact ih a args t d d' h n hn

theorem updateVary_not_mem :
    ∀ (l : List String) (a : Agent V) (args : List String) (t : Nat) (d d' : SolveDict V),
      updateVary a args t d l = Except.ok d' → ∀ n, n ∉ l → d' n = d n := by
  intro l
  induction l with
  | nil =>
    intro a args t d d' h n _
    cases h
    rfl
  | cons m rest ih =>
    intro a args t d d' h n hn
    have hnm : n ≠ m := fun hh => hn (hh ▸ List.mem_cons_self m rest)
    have hnr : n ∉ rest := fun hh => hn (List.mem_cons_of_mem m hh)
    rw [updateVary] at h
    by_cases hm : m ∈ args
    · rw [if_pos hm] at h
      cases ha : a.attrs m with
      | none => simp only [ha] at h; cases h
      | some o =>
        cases o with
        | scalar v => simp only [ha] at h; cases h
        | seq xs =>
          simp only [ha] at h
          cases hg : xs.get? t with
          | none => simp only [hg] at h; cases h
          | some x =>
            simp only [hg] at h
            rw [ih a args t _ d' h n hnr]
            exact setKey_ne d hnm _
    · rw [if_neg hm] at h
      exact ih a args t d d' h n hnr

theorem updateVary_mem_arg :
    ∀ (l : List String) (a : Agent V) (args : List String) (t : Nat) (d d' : SolveDict V),
      updateVary a args t d l = Except.ok d' → ∀ n, n ∈ l → n ∈ args →
      ∃ xs x, a.attrs n = some (PyObj.seq xs) ∧ xs.get? t = some x ∧
        d' n = some (some (PyObj.scalar x)) := by
  intro l
  induction l with
  | nil =>
    intro a args t d d' _ n hn
    cases hn
  | cons m rest ih =>
    intro a args t d d' h n hn hna
    rw [updateVary] at h
    by_cases hm : m ∈ args
    · rw [if_pos hm] at h
      cases ha : a.attrs m with
      | none => simp only [ha] at h; cases h
      | some o =>
        cases o with
        | scalar v => simp only [ha] at h; cases h
        | seq xs =>
          simp only [ha] at h
          cases hg : xs.get? t with
          | none => simp only [hg] at h; cases h
          | some x =>
            simp only [hg] at h
            by_cases hnr : n ∈ rest
            · exact ih a args t _ d' h n hnr hna
            · have hnm : n = m := by
                rcases List.mem_cons.mp hn with h1 | h2
                · exact h1
                · exact absurd h2 hnr
              subst hnm
              refine ⟨xs, x, ha, hg, ?_⟩
              rw [updateVary_not_mem rest a args t _ d' h n hnr]
              exact setKey_self d n _
    · rw [if_neg hm] at h
      have hnm : n ≠ m := fun hh => hm (hh ▸ hna)
      have hnr : n ∈ rest := by
        rcases List.mem_cons.mp hn with h1 | h2
        · exact absurd h1 hnm
        · exact h2
      exact ih a args t d d' h n hnr hna

theorem updateVary_ok_of :
    ∀ (l : List String) (a : Agent V) (args : List String) (t : Nat) (d : SolveDict V),
      (∀ n ∈ l, n ∈ args →
        ∃ xs x, a.attrs n = some (PyObj.seq xs) ∧ xs.get? t = some x) →
      ∃ d', updateVary a args t d l = Except.ok d' := by
  intro l
  induction l with
  | nil => intro a args t d _; exact ⟨d, rfl⟩
  | cons m rest ih =>
    intro a args t d hpre
    rw [updateVary]
    by_cases hm : m ∈ args
    · obtain ⟨xs, x, ha, hg⟩ := hpre m (List.mem_cons_self m rest) hm
      rw [if_pos hm]
      simp only [ha, hg]
      exact ih a args t _ (fun n hn hna => hpre n (List.mem_cons_of_mem m hn) hna)
    · rw [if_neg hm]
      exact ih a args t d (fun n hn hna => hpre n (List.mem_cons_of_mem m hn) hna)

theorem setInvKeys_not_mem :
    ∀ (l : List String) (a : Agent V) (d d' : SolveDict V),
      setInvKeys a d l = Except.ok d' → ∀ n, n ∉ l → d' n = d n := by
  intro l
  induction l with
  | nil =>
    intro a d d' h n _
    cases h
    rfl
  | cons m rest ih =>
    intro a d d' h n hn
    have hnm : n ≠ m := fun hh => hn (hh ▸ List.mem_cons_self m rest)
    have hnr : n ∉ rest := fun hh => hn (List.mem_cons_of_mem m hh)
    rw [setInvKeys] at h
    cases ha : a.attrs m with
    | none => simp only [ha] at h; cases h
    | some o =>
      simp only [ha] at h
      rw [ih a _ d' h n hnr]
      exact setKey_ne d hnm _

theorem setInvKeys_mem :
    ∀ (l : List String) (a : Agent V) (d d' : SolveDict V),
      setInvKeys a d l = Except.ok d' → ∀ n, n ∈ l →
      ∃ o, a.attrs n = some o ∧ d' n = some (some o) := by
  intro l
  induction l with
  | nil =>
    intro a d d' _ n hn
    cases hn
  | cons m rest ih =>
    intro a d d' h n hn
    rw [setInvKeys] at h
    cases ha : a.attrs m with
    | none => simp only [ha] at h; cases h
    | some o =>
      simp only [ha] at h
      by_cases hnr : n ∈ rest
      · exact ih a _ d' h n hnr
      · have hnm : n = m := by
          rcases List.mem_cons.mp hn with h1 | h2
          · exact h1
          · exact absurd h2 hnr
        subst hnm
        refine ⟨o, ha, ?_⟩
        rw [setInvKeys_not_mem rest a _ d' h n hnr]
        exact setKey_self d n _

theorem setVaryKeys_not_mem :
    ∀ (l : List String) (d : SolveDict V) (n : String), n ∉ l →
      setVaryKeys d l n = d n := by
  intro l
  induction l with
  | nil => intro d n _; rfl
  | cons m rest ih =>
    intro d n hn
    have hnm : n ≠ m := fun hh => hn (hh ▸ List.mem_cons_self m rest)
    have hnr : n ∉ rest := fun hh => hn (List.mem_cons_of_mem m hh)
    rw [setVaryKeys, ih _ n hnr]
    exact setKey_ne d hnm _

theorem setVaryKeys_mem :
    ∀ (l : List String) (d : SolveDict V) (n : String), n ∈ l →
      setVaryKeys d l n = some none := by
  intro l
  induction l with
  | nil => intro d n hn; cases hn
  | cons m rest ih =>
    intro d n hn
    rw [setVaryKeys]
    by_cases hnr : n ∈ rest
    · exact ih _ n hnr
    · have hnm : n = m := by
        rcases List.mem_cons.mp hn with h1 | h2
        · exact h1
        · exact absurd h2 hnr
      subst hnm
      rw [setVaryKeys_not_mem rest _ n hnr]
      exact setKey_self d n _

/-- A freshly built `solve_dict` satisfies the between-period invariant. -/
theorem initSolveDict_inv {a : Agent V} {d : SolveDict V}
    (h : initSolveDict a = Except.ok d) : DictInv a d := by
  unfold initSolveDict at h
  cases h1 : setInvKeys a (fun _ => none) a.time_inv with
  | error e => simp only [h1] at h; cases h
  | ok d0 =>
    simp only [h1] at h
    cases h
    intro n _ hnv
    constructor
    · intro hni
      obtain ⟨o, hao, hd0⟩ := setInvKeys_mem a.time_inv a _ d0 h1 n hni
      refine ⟨o, hao, ?_⟩
      rw [setVaryKeys_not_mem a.time_vary d0 n hnv]
      exact hd0
    · intro hni
      rw [setVaryKeys_not_mem a.time_vary d0 n hnv]
      rw [setInvKeys_not_mem a.time_inv a _ d0 h1 n hni]

/-- The per-period rebinding preserves the between-period invariant. -/
theorem periodTemp_inv {a : Agent V} {args : List String} {t : Nat} {s : V}
    {d : SolveDict V} {temp : ArgDict V} {d2 : SolveDict V}
    (hd : DictInv a d) (h : periodTemp a args t s d = Except.ok (temp, d2)) :
    DictInv a d2 := by
  unfold periodTemp at h
  cases hu : updateVary a args t d a.time_vary with
  | error e => simp only [hu] at h; cases h
  | ok d1 =>
    simp only [hu] at h
    cases hB : buildTemp (setKey d1 "solution_tp1" (some (PyObj.scalar s))) args with
    | error e => simp only [hB] at h; cases h
    | ok tp =>
      simp only [hB] at h
      cases h
      intro n hstp hnv
      have hkey : setKey d1 "solution_tp1" (some (PyObj.scalar s)) n = d n := by
        rw [setKey_ne d1 hstp, updateVary_not_mem a.time_vary a args t d d1 hu n hnv]
      constructor
      · intro hni
        obtain ⟨o, hao, hdn⟩ := (hd n hstp hnv).1 hni
        exact ⟨o, hao, by rw [hkey]; exact hdn⟩
      · intro hni
        rw [hkey]
        exact (hd n hstp hnv).2 hni

end HARK

namespace HARK

variable {V : Type}

/-- After the per-period rebinding and the `solution_tp1` write, every
declared name reads back exactly the value `argValue` specifies, or is
absent exactly when `argValue` raises. -/
theorem periodTemp_pointwise {a : Agent V}
    {args : List String} {t : Nat} (s : V) {d d1 : SolveDict V} (hd : DictInv a d)
    (hu : updateVary a args t d a.time_vary = Except.ok d1) :
    ∀ n ∈ args,
      (∃ v, argValue a t s n = Except.ok v ∧
        setKey d1 "solution_tp1" (some (PyObj.scalar s)) n = some v) ∨
      ((∃ e, argValue a t s n = Except.error e) ∧
        setKey d1 "solution_tp1" (some (PyObj.scalar s)) n = none) := by
  intro n hn
  by_cases hs : n = "solution_tp1"
  · subst hs
    left
    refine ⟨some (PyObj.scalar s), ?_, setKey_self d1 _ _⟩
    unfold argValue
    rw [if_pos rfl]
  · rw [setKey_ne d1 hs]
    by_cases hv : n ∈ a.time_vary
    · obtain ⟨xs, x, ha, hg, hd1⟩ := updateVary_mem_arg a.time_vary a args t d d1 hu n hv hn
      left
      refine ⟨some (PyObj.scalar x), ?_, hd1⟩
      unfold argValue
      rw [if_neg hs, if_pos hv]
      simp only [ha, hg]
    · have hd1n : d1 n = d n := updateVary_not_mem a.time_vary a args t d d1 hu n hv
      by_cases hi : n ∈ a.time_inv
      · obtain ⟨o, hao, hdn⟩ := (hd n hs hv).1 hi
        left
        refine ⟨some o, ?_, by rw [hd1n]; exact hdn⟩
        unfold argValue
        rw [if_neg hs, if_neg hv, if_pos hi]
        simp only [hao]
      · right
        refine ⟨⟨"KeyError", ?_⟩, by rw [hd1n]; exact (hd n hs hv).2 hi⟩
        unfold argValue
        rw [if_neg hs, if_neg hv, if_neg hi]

/-- The `temp_dict` comprehension agrees with the name-by-name assembly
whenever the dict values agree pointwise with `argValue`. -/
theorem buildTemp_vs_assemble :
    ∀ (args : List String) (dd : SolveDict V) (a : Agent V) (t : Nat) (s : V),
      (∀ n ∈ args,
        (∃ v, argValue a t s n = Except.ok v ∧ dd n = some v) ∨
        ((∃ e, argValue a t s n = Except.error e) ∧ dd n = none)) →
      ∀ temp, (buildTemp dd args = Except.ok temp ↔
        assembleArgs a t s args = Except.ok temp) := by
  intro args
  induction args with
  | nil => intro dd a t s _ temp; exact Iff.rfl
  | cons n rest ih =>
    intro dd a t s hp temp
    have ihr := ih dd a t s (fun m hm => hp m (List.mem_cons_of_mem n hm))
    rcases hp n (List.mem_cons_self n rest) with ⟨v, hav, hddn⟩ | ⟨⟨e, hae⟩, hddn⟩
    · rw [buildTemp, assembleArgs]
      simp only [hddn, hav]
      cases hb : buildTemp dd rest with
      | error e2 =>
        cases ha2 : assembleArgs a t s rest with
        | error e3 =>
          constructor
          · intro hh; cases hh
          · intro hh; cases hh
        | ok tr =>
          exact absurd ((ihr tr).mpr ha2) (by rw [hb]; intro hh; cases hh)
      | ok tr =>
        have ha2 : assembleArgs a t s rest = Except.ok tr := (ihr tr).mp hb
        rw [ha2]
    · rw [buildTemp, assembleArgs]
      simp only [hddn, hae]
      constructor
      · intro hh; cases hh
      · intro hh; cases hh

/-- A successful assembly means every declared name has a value. -/
theorem assembleArgs_ok_forall :
    ∀ (args : List String) (a : Agent V) (t : Nat) (s : V) (temp : ArgDict V),
      assembleArgs a t s args = Except.ok temp →
      ∀ n ∈ args, ∃ v, argValue a t s n = Except.ok v := by
  intro args
  induction args with
  | nil => intro a t s temp _ n hn; cases hn
  | cons m rest ih =>
    intro a t s temp h n hn
    rw [assembleArgs] at h
    cases h1 : argValue a t s m with
    | error e => simp only [h1] at h; cases h
    | ok v =>
      simp only [h1] at h
      cases h2 : assembleArgs a t s rest with
      | error e => simp only [h2] at h; cases h
      | ok tr =>
        rcases List.mem_cons.mp hn with h3 | h3
        · subst h3; exact ⟨v, h1⟩
        · exact ih a t s tr h2 n h3

/-- The keyword arguments a period's solver is called with are exactly the
name-by-name assembly of its declared argument list — and the call's
argument construction fails exactly when that assembly fails. -/
theorem periodTemp_args_spec {a : Agent V} (hstp : "solution_tp1" ∉ a.time_vary)
    {args : List String} {t : Nat} {s : V} {d : SolveDict V} (hd : DictInv a d) :
    ∀ temp, ((periodTemp a args t s d).map Prod.fst = Except.ok temp ↔
      assembleArgs a t s args = Except.ok temp) := by
  intro temp
  constructor
  · intro hP
    cases hPT : periodTemp a args t s d with
    | error e => simp only [hPT, Except.map] at hP; cases hP
    | ok td =>
      obtain ⟨tp, d2⟩ := td
      simp only [hPT, Except.map] at hP
      cases hP
      unfold periodTemp at hPT
      cases hu : updateVary a args t d a.time_vary with
      | error e => simp only [hu] at hPT; cases hPT
      | ok d1 =>
        simp only [hu] at hPT
        cases hB : buildTemp (setKey d1 "solution_tp1" (some (PyObj.scalar s))) args with
        | error e => simp only [hB] at hPT; cases hPT
        | ok tp2 =>
          simp only [hB] at hPT
          cases hPT
          exact (buildTemp_vs_assemble args _ a t s
            (periodTemp_pointwise s hd hu) _).mp hB
  · intro hA
    have hall := assembleArgs_ok_forall args a t s temp hA
    have hpre : ∀ n ∈ a.time_vary, n ∈ args →
        ∃ xs x, a.attrs n = some (PyObj.seq xs) ∧ xs.get? t = some x := by
      intro n hnv hna
      obtain ⟨v, hv⟩ := hall n hna
      have hns : n ≠ "solution_tp1" := fun hh => hstp (hh ▸ hnv)
      unfold argValue at hv
      rw [if_neg hns, if_pos hnv] at hv
      cases ha : a.attrs n with
      | none => simp only [ha] at hv; cases hv
      | some o =>
        cases o with
        | scalar w => simp only [ha] at hv; cases hv
        | seq xs =>
          simp only [ha] at hv
          cases hg : xs.get? t with
          | none => simp only [hg] at hv; cases hv
          | some x => exact ⟨xs, x, rfl, hg⟩
    obtain ⟨d1, hu⟩ := updateVary_ok_of a.time_vary a args t d hpre
    have hB := (buildTemp_vs_assemble args _ a t s
      (periodTemp_pointwise s hd hu) temp).mpr hA
    unfold periodTemp
    simp only [hu, hB, Except.map]

/-- Claim C3: in every cycle and period, the per-period solver is invoked
with exactly the arguments it declares — each declared time-invariant
parameter, the `t`-th element of each declared time-varying parameter, and
the next-period solution bound to `solution_tp1`; undeclared parameters
are never passed, and a declared argument absent from the assembled set
makes the period (and hence the cycle) fail with a propagated error.  The
`solve_dict` invariant holds initially and is preserved period to period,
so the characterisation applies at every period of every cycle. -/
theorem claim_C3_argument_binding (a : Agent V) (hstp : "solution_tp1" ∉ a.time_vary) :
    (∀ d, initSolveDict a = Except.ok d → DictInv a d) ∧
    (∀ args t s d temp d2, DictInv a d →
      periodTemp a args t s d = Except.ok (temp, d2) → DictInv a d2) ∧
    (∀ args t s d temp, DictInv a d →
      ((periodTemp a args t s d).map Prod.fst = Except.ok temp ↔
        assembleArgs a t s args = Except.ok temp)) ∧
    (∀ T t d s solver e, getSolver a t = Except.ok solver →
      periodTemp a solver.1 t s d = Except.error e →
      cycleLoop a (T + 1) t d s = Except.error e) := by
  refine ⟨fun d hd => initSolveDict_inv hd,
    fun args t s d temp d2 hd hp => periodTemp_inv hd hp,
    fun args t s d temp hd => periodTemp_args_spec hstp hd temp,
    ?_⟩
  intro T t d s solver e hsol hpt
  rw [cycleLoop]
  simp only [hsol, hpt]

/-- Witness for C3 at the concrete three-period agent: the incrementing
solver receives exactly its declared argument `solution_tp1`. -/
theorem claim_C3_witness :
    ("solution_tp1" ∉ (mk3Agent false).time_vary) ∧
    ∃ d, initSolveDict (mk3Agent false) = Except.ok d ∧
      (periodTemp (mk3Agent false) incSolver.1 0 (0 : Int) d).map Prod.fst =
        Except.ok [("solution_tp1", some (PyObj.scalar (0 : Int)))] := by
  have h := claim_C3_argument_binding (mk3Agent false) (by decide)
  obtain ⟨d, hdinit⟩ : ∃ d, initSolveDict (mk3Agent false) = Except.ok d := ⟨_, rfl⟩
  have hd := h.1 d hdinit
  refine ⟨by decide, d, hdinit, ?_⟩
  exact (h.2.2.1 incSolver.1 0 0 d _ hd).mpr (by rfl)

end HARK

namespace HARK

variable {V : Type}

/-- A successful `solveAgent` leaves the agent observably as it found it:
the two forced flips cancel. -/
theorem solveAgent_restores {a a1 : Agent V} {sols : List V} {n : Nat}
    (h : solveAgent a = Except.ok (a1, sols, n)) :
    a1.time_flow = a.time_flow ∧ (∀ k, a1.attrs k = a.attrs k) ∧
    a1.solveAPeriodSeq = a.solveAPeriodSeq ∧ SameShape a a1 := by
  obtain ⟨a', hrev, _, hrest⟩ := solveAgent_ok_cases h
  by_cases hf : a.time_flow = true
  · have hrev' : timeFlip a = Except.ok a' := by
      unfold timeRev at hrev
      rw [if_pos hf] at hrev
      exact hrev
    rw [if_pos hf] at hrest
    obtain ⟨c, hc, hsh, hcf, hca, hcs⟩ := timeFlip_timeFlip hrev'
    have hfwd : timeFwd a' = Except.ok c := by
      unfold timeFwd
      have ha'f : a'.time_flow = false := by
        rw [(timeFlip_ok_spec hrev').2.1, hf]
        rfl
      rw [if_neg (by rw [ha'f]; exact Bool.false_ne_true)]
      exact hc
    rw [hfwd] at hrest
    cases hrest
    exact ⟨hcf, hca, hcs, hsh⟩
  · have hff : a.time_flow = false := by
      cases hb : a.time_flow
      · rfl
      · exact absurd hb hf
    rw [timeRev_of_false hff] at hrev
    cases hrev
    rw [if_neg hf] at hrest
    cases hrest
    exact ⟨rfl, fun k => rfl, rfl, sameShape_refl a⟩

theorem flipNames_append :
    ∀ (l1 l2 : List String) (a : Agent V),
      flipNames a (l1 ++ l2) =
        match flipNames a l1 with
        | Except.ok b => flipNames b l2
        | Except.error e => Except.error e := by
  intro l1
  induction l1 with
  | nil => intro l2 a; rfl
  | cons m rest ih =>
    intro l2 a
    rw [List.cons_append, flipNames, flipNames]
    cases hf : flipName a m with
    | error e => rfl
    | ok b => exact ih l2 b

/-- One parallel flip step: related agents flip a non-`'solution'` name to
related agents. -/
theorem flipName_rel {p q p2 : Agent V} (hrel : SolveRel p q) {n : String}
    (hn : n ≠ "solution") (h : flipName p n = Except.ok p2) :
    ∃ q2, flipName q n = Except.ok q2 ∧ SolveRel p2 q2 := by
  obtain ⟨hv, hat, hsol, hinv, hfix, hseq, hterm, hcy, hps, htol, hdist, hfl⟩ := hrel
  unfold flipName at h
  by_cases hsap : n = "solveAPeriod"
  · rw [if_pos hsap] at h
    cases h
    refine ⟨{ q with solveAPeriodSeq := q.solveAPeriodSeq.reverse }, ?_, ?_⟩
    · unfold flipName
      rw [if_pos hsap]
    · exact ⟨hv, hat, hsol, hinv, hfix, by rw [hseq], hterm, hcy, hps, htol, hdist, hfl⟩
  · rw [if_neg hsap] at h
    cases hpa : p.attrs n with
    | none => rw [hpa] at h; cases h
    | some o =>
      cases o with
      | scalar v => rw [hpa] at h; cases h
      | seq xs =>
        rw [hpa] at h
        cases h
        refine ⟨{ q with attrs := updAttr q.attrs n (PyObj.seq xs.reverse) }, ?_, ?_⟩
        · unfold flipName
          rw [if_neg hsap, hat n hn, hpa]
        · refine ⟨hv, ?_, ?_, hinv, hfix, hseq, hterm, hcy, hps, htol, hdist, hfl⟩
          · intro m hm
            show updAttr q.attrs n (PyObj.seq xs.reverse) m =
              updAttr p.attrs n (PyObj.seq xs.reverse) m
            by_cases hmn : m = n
            · subst hmn
              rw [updAttr_self, updAttr_self]
            · rw [updAttr_ne q.attrs hmn, updAttr_ne p.attrs hmn]
              exact hat m hm
          · obtain ⟨ys, hys⟩ := hsol
            refine ⟨ys, ?_⟩
            show updAttr q.attrs n (PyObj.seq xs.reverse) "solution" = _
            rw [updAttr_ne q.attrs (fun hh => hn hh.symm)]
            exact hys

end HARK

namespace HARK

variable {V : Type}

theorem flipNames_rel :
    ∀ (l : List String) (p q p2 : Agent V), SolveRel p q →
      (∀ n ∈ l, n ≠ "solution") → flipNames p l = Except.ok p2 →
      ∃ q2, flipNames q l = Except.ok q2 ∧ SolveRel p2 q2 := by
  intro l
  induction l with
  | nil =>
    intro p q p2 hrel _ h
    cases h
    exact ⟨q, rfl, hrel⟩
  | cons m rest ih =>
    intro p q p2 hrel hfree h
    rw [flipNames] at h
    cases hf : flipName p m with
    | error e => rw [hf] at h; cases h
    | ok pm =>
      rw [hf] at h
      obtain ⟨qm, hqm, hrelm⟩ :=
        flipName_rel hrel (hfree m (List.mem_cons_self m rest)) hf
      obtain ⟨q2, hq2, hrel2⟩ := ih pm qm p2 hrelm
        (fun n hn => hfree n (List.mem_cons_of_mem m hn)) h
      refine ⟨q2, ?_, hrel2⟩
      rw [flipNames, hqm]
      exact hq2

/-- Flipping the registered `'solution'` attribute keeps the relation. -/
theorem flipName_solution_rel {p q : Agent V} (hrel : SolveRel p q) :
    ∃ q2, flipName q "solution" = Except.ok q2 ∧ SolveRel p q2 := by
  obtain ⟨hv, hat, ⟨xs, hxs⟩, hinv, hfix, hseq, hterm, hcy, hps, htol, hdist, hfl⟩ := hrel
  refine ⟨{ q with attrs := updAttr q.attrs "solution" (PyObj.seq xs.reverse) }, ?_, ?_⟩
  · unfold flipName
    rw [if_neg (by decide : ¬ ("solution" = "solveAPeriod")), hxs]
  · refine ⟨hv, ?_, ?_, hinv, hfix, hseq, hterm, hcy, hps, htol, hdist, hfl⟩
    · intro m hm
      show updAttr q.attrs "solution" (PyObj.seq xs.reverse) m = p.attrs m
      rw [updAttr_ne q.attrs hm]
      exact hat m hm
    · refine ⟨xs.reverse, ?_⟩
      show updAttr q.attrs "solution" (PyObj.seq xs.reverse) "solution" = _
      rw [updAttr_self]

/-- `timeFlip` transports the second-solve relation. -/
theorem timeFlip_rel {p q p2 : Agent V} (hrel : SolveRel p q)
    (hfree : "solution" ∉ p.time_vary) (h : timeFlip p = Except.ok p2) :
    ∃ q2, timeFlip q = Except.ok q2 ∧ SolveRel p2 q2 := by
  unfold timeFlip at h
  cases hfn : flipNames p p.time_vary with
  | error e => rw [hfn] at h; cases h
  | ok p0 =>
    rw [hfn] at h
    cases h
    obtain ⟨q0, hq0, hrel0⟩ := flipNames_rel p.time_vary p q p0 hrel
      (fun n hn => fun hh => hfree (hh ▸ hn)) hfn
    obtain ⟨q1, hq1, hrel1⟩ := flipName_solution_rel hrel0
    have hqvary : q.time_vary = p.time_vary ++ ["solution"] := hrel.1
    refine ⟨{ q1 with time_flow := !q1.time_flow }, ?_, ?_⟩
    · have hstep : flipNames q0 ["solution"] = Except.ok q1 := by
        rw [flipNames, hq1]
        rfl
      unfold timeFlip
      rw [hqvary, flipNames_append]
      simp only [hq0, hstep]
    · obtain ⟨hv, hat, hsol, hinv, hfix, hseq, hterm, hcy, hps, htol, hdist, hfl⟩ := hrel1
      exact ⟨hv, hat, hsol, hinv, hfix, hseq, hterm, hcy, hps, htol, hdist, by
        show (!q1.time_flow) = (!p0.time_flow)
        rw [hfl]⟩

/-- `timeRev` transports the second-solve relation. -/
theorem timeRev_rel {p q p2 : Agent V} (hrel : SolveRel p q)
    (hfree : "solution" ∉ p.time_vary) (h : timeRev p = Except.ok p2) :
    ∃ q2, timeRev q = Except.ok q2 ∧ SolveRel p2 q2 := by
  have hfl : q.time_flow = p.time_flow := hrel.2.2.2.2.2.2.2.2.2.2.2
  unfold timeRev at h
  unfold timeRev
  by_cases hf : p.time_flow = true
  · rw [if_pos hf] at h
    rw [if_pos (hfl.trans hf)]
    exact timeFlip_rel hrel hfree h
  · rw [if_neg hf] at h
    cases h
    rw [if_neg (fun hh => hf (hfl.symm.trans hh))]
    exact ⟨q, rfl, hrel⟩

/-- `timeFwd` transports the second-solve relation. -/
theorem timeFwd_rel {p q p2 : Agent V} (hrel : SolveRel p q)
    (hfree : "solution" ∉ p.time_vary) (h : timeFwd p = Except.ok p2) :
    ∃ q2, timeFwd q = Except.ok q2 ∧ SolveRel p2 q2 := by
  have hfl : q.time_flow = p.time_flow := hrel.2.2.2.2.2.2.2.2.2.2.2
  unfold timeFwd at h
  unfold timeFwd
  by_cases hf : p.time_flow = true
  · rw [if_pos hf] at h
    cases h
    rw [if_pos (hfl.trans hf)]
    exact ⟨q, rfl, hrel⟩
  · rw [if_neg hf] at h
    rw [if_neg (fun hh => hf (hfl.symm.trans hh))]
    exact timeFlip_rel hrel hfree h

/-- The freshness conditions survive a `timeFlip`. -/
theorem noSolutionName_timeFlip {p p2 : Agent V} (h : timeFlip p = Except.ok p2)
    (hns : NoSolutionName p) : NoSolutionName p2 := by
  obtain ⟨hsh, _, _, hsq, _⟩ := timeFlip_ok_spec h
  obtain ⟨h1, h2, h3, h4, h5⟩ := hns
  have hv : p2.time_vary = p.time_vary := hsh.2.2.2.2.2.1
  have hi : p2.time_inv = p.time_inv := hsh.2.2.2.2.2.2.1
  have hsolver : p2.solveAPeriod = p.solveAPeriod := hsh.2.2.2.2.2.2.2
  refine ⟨by rw [hv]; exact h1, by rw [hi]; exact h2, by rw [hsolver]; exact h3, ?_,
    by rw [hv]; exact h5⟩
  intro s hs
  rw [hsq] at hs
  exact h4 s ((reverse_iter_mem _ _ _).mp hs)

/-- The freshness conditions survive a `timeRev` or `timeFwd`. -/
theorem noSolutionName_timeRev {p p2 : Agent V} (h : timeRev p = Except.ok p2)
    (hns : NoSolutionName p) : NoSolutionName p2 := by
  unfold timeRev at h
  by_cases hf : p.time_flow = true
  · rw [if_pos hf] at h
    exact noSolutionName_timeFlip h hns
  · rw [if_neg hf] at h
    cases h
    exact hns

end HARK

namespace HARK

variable {V : Type}

theorem setKey_rel {dp dq : SolveDict V}
    (hd : ∀ n, n ≠ "solution" → dq n = dp n) (k : String) (v : DV V) :
    ∀ n, n ≠ "solution" → setKey dq k v n = setKey dp k v n := by
  intro n hn
  unfold setKey
  by_cases hk : n = k
  · rw [if_pos hk, if_pos hk]
  · rw [if_neg hk, if_neg hk]
    exact hd n hn

theorem setInvKeys_rel :
    ∀ (l : List String) (p q : Agent V) (dp dq dp' : SolveDict V),
      (∀ n, n ≠ "solution" → q.attrs n = p.attrs n) →
      (∀ n ∈ l, n ≠ "solution") →
      (∀ n, n ≠ "solution" → dq n = dp n) →
      setInvKeys p dp l = Except.ok dp' →
      ∃ dq', setInvKeys q dq l = Except.ok dq' ∧
        (∀ n, n ≠ "solution" → dq' n = dp' n) := by
  intro l
  induction l with
  | nil =>
    intro p q dp dq dp' _ _ hd h
    cases h
    exact ⟨dq, rfl, hd⟩
  | cons m rest ih =>
    intro p q dp dq dp' hat hfree hd h
    rw [setInvKeys] at h
    cases ha : p.attrs m with
    | none => simp only [ha] at h; cases h
    | some o =>
      simp only [ha] at h
      obtain ⟨dq', hq, hd'⟩ := ih p q (setKey dp m (some o)) (setKey dq m (some o)) dp'
        hat (fun n hn => hfree n (List.mem_cons_of_mem m hn))
        (setKey_rel hd m (some o)) h
      refine ⟨dq', ?_, hd'⟩
      rw [setInvKeys]
      rw [hat m (hfree m (List.mem_cons_self m rest)), ha]
      exact hq

theorem setVaryKeys_append :
    ∀ (l1 l2 : List String) (d : SolveDict V),
      setVaryKeys d (l1 ++ l2) = setVaryKeys (setVaryKeys d l1) l2 := by
  intro l1
  induction l1 with
  | nil => intro l2 d; rfl
  | cons m rest ih =>
    intro l2 d
    rw [List.cons_append, setVaryKeys, setVaryKeys]
    exact ih l2 _

theorem setVaryKeys_rel :
    ∀ (l : List String) (dp dq : SolveDict V),
      (∀ n, n ≠ "solution" → dq n = dp n) →
      ∀ n, n ≠ "solution" → setVaryKeys dq l n = setVaryKeys dp l n := by
  intro l dp dq hd n hn
  by_cases hm : n ∈ l
  · rw [setVaryKeys_mem l dq n hm, setVaryKeys_mem l dp n hm]
  · rw [setVaryKeys_not_mem l dq n hm, setVaryKeys_not_mem l dp n hm]
    exact hd n hn

/-- The initial `solve_dict`s of the two related agents agree away from
`'solution'`. -/
theorem initSolveDict_rel {p q : Agent V} (hrel : SolveRel p q)
    (hns : NoSolutionName p) {dp : SolveDict V}
    (h : initSolveDict p = Except.ok dp) :
    ∃ dq, initSolveDict q = Except.ok dq ∧
      (∀ n, n ≠ "solution" → dq n = dp n) := by
  have hinv : q.time_inv = p.time_inv := hrel.2.2.2.1
  have hvary : q.time_vary = p.time_vary ++ ["solution"] := hrel.1
  have hat : ∀ n, n ≠ "solution" → q.attrs n = p.attrs n := hrel.2.1
  unfold initSolveDict at h ⊢
  cases h1 : setInvKeys p (fun _ => none) p.time_inv with
  | error e => simp only [h1] at h; cases h
  | ok dp0 =>
    simp only [h1] at h
    cases h
    obtain ⟨dq0, hq0, hrel0⟩ := setInvKeys_rel p.time_inv p q _ _ dp0 hat
      (fun n hn hh => hns.2.1 (hh ▸ hn)) (fun n _ => rfl) h1
    rw [hinv]
    simp only [hq0]
    refine ⟨_, rfl, ?_⟩
    intro n hn
    rw [hvary, setVaryKeys_append]
    rw [show setVaryKeys (setVaryKeys dq0 p.time_vary) ["solution"] n =
        setKey (setVaryKeys dq0 p.time_vary) "solution" none n from rfl]
    rw [setKey_ne _ hn]
    exact setVaryKeys_rel p.time_vary dp0 dq0 hrel0 n hn

end HARK

namespace HARK

variable {V : Type}

theorem updateVary_append :
    ∀ (l1 l2 : List String) (a : Agent V) (args : List String) (t : Nat) (d : SolveDict V),
      updateVary a args t d (l1 ++ l2) =
        match updateVary a args t d l1 with
        | Except.ok d1 => updateVary a args t d1 l2
        | Except.error e => Except.error e := by
  intro l1
  induction l1 with
  | nil => intro l2 a args t d; rfl
  | cons m rest ih =>
    intro l2 a args t d
    rw [List.cons_append, updateVary, updateVary]
    by_cases hm : m ∈ args
    · rw [if_pos hm, if_pos hm]
      cases ha : a.attrs m with
      | none => rfl
      | some o =>
        cases o with
        | scalar v => rfl
        | seq xs =>
          cases hg : xs.get? t with
          | none => simp only [hg]
          | some x =>
            simp only [hg]
            exact ih l2 a args t _
    · rw [if_neg hm, if_neg hm]
      exact ih l2 a args t d

theorem updateVary_rel :
    ∀ (l : List String) (p q : Agent V) (args : List String) (t : Nat)
      (dp dq dp' : SolveDict V),
      (∀ n, n ≠ "solution" → q.attrs n = p.attrs n) →
      (∀ n ∈ l, n ≠ "solution") →
      (∀ n, n ≠ "solution" → dq n = dp n) →
      updateVary p args t dp l = Except.ok dp' →
      ∃ dq', updateVary q args t dq l = Except.ok dq' ∧
        (∀ n, n ≠ "solution" → dq' n = dp' n) := by
  intro l
  induction l with
  | nil =>
    intro p q args t dp dq dp' _ _ hd h
    cases h
    exact ⟨dq, rfl, hd⟩
  | cons m rest ih =>
    intro p q args t dp dq dp' hat hfree hd h
    have hm0 : m ≠ "solution" := hfree m (List.mem_cons_self m rest)
    rw [updateVary] at h
    rw [updateVary, hat m hm0]
    by_cases hm : m ∈ args
    · rw [if_pos hm] at h ⊢
      cases ha : p.attrs m with
      | none => simp only [ha] at h; cases h
      | some o =>
        cases o with
        | scalar v => simp only [ha] at h; cases h
        | seq xs =>
          simp only [ha] at h ⊢
          cases hg : xs.get? t with
          | none => simp only [hg] at h; cases h
          | some x =>
            simp only [hg] at h ⊢
            exact ih p q args t _ _ dp' hat
              (fun n hn => hfree n (List.mem_cons_of_mem m hn))
              (setKey_rel hd m (some (PyObj.scalar x))) h
    · rw [if_neg hm] at h ⊢
      exact ih p q args t dp dq dp' hat
        (fun n hn => hfree n (List.mem_cons_of_mem m hn)) hd h

theorem buildTemp_rel :
    ∀ (args : List String) (dp dq : SolveDict V),
      (∀ n ∈ args, n ≠ "solution") →
      (∀ n, n ≠ "solution" → dq n = dp n) →
      buildTemp dq args = buildTemp dp args := by
  intro args
  induction args with
  | nil => intro dp dq _ _; rfl
  | cons m rest ih =>
    intro dp dq hfree hd
    rw [buildTemp, buildTemp, hd m (hfree m (List.mem_cons_self m rest))]
    cases dp m with
    | none => rfl
    | some v => rw [ih dp dq (fun n hn => hfree n (List.mem_cons_of_mem m hn)) hd]

theorem getSolver_rel {p q : Agent V} (hrel : SolveRel p q) (t : Nat) :
    getSolver q t = getSolver p t := by
  have hv : q.time_vary = p.time_vary ++ ["solution"] := hrel.1
  have hfix : q.solveAPeriod = p.solveAPeriod := hrel.2.2.2.2.1
  have hseq : q.solveAPeriodSeq = p.solveAPeriodSeq := hrel.2.2.2.2.2.1
  unfold getSolver
  rw [hv, hfix, hseq]
  by_cases hm : "solveAPeriod" ∈ p.time_vary
  · rw [if_pos hm, if_pos (List.mem_append_left _ hm)]
  · rw [if_neg hm, if_neg ?hq]
    case hq =>
      intro hh
      rcases List.mem_append.mp hh with h1 | h1
      · exact hm h1
      · exact absurd (List.mem_singleton.mp h1) (by decide)

theorem periodCount_rel {p q : Agent V} (hrel : SolveRel p q)
    (hns : NoSolutionName p) : periodCount q = periodCount p := by
  have hv : q.time_vary = p.time_vary ++ ["solution"] := hrel.1
  have hseq : q.solveAPeriodSeq = p.solveAPeriodSeq := hrel.2.2.2.2.2.1
  have hat : ∀ n, n ≠ "solution" → q.attrs n = p.attrs n := hrel.2.1
  unfold periodCount
  rw [hv, hseq]
  cases hl : p.time_vary with
  | nil => exact absurd hl hns.2.2.2.2
  | cons name rest =>
    have hname : name ≠ "solution" := by
      intro hh
      exact hns.1 (by rw [hl, hh]; exact List.mem_cons_self _ _)
    show (if name = "solveAPeriod" then Except.ok p.solveAPeriodSeq.length
        else match q.attrs name with
          | some (PyObj.seq xs) => Except.ok xs.length
          | _ => Except.error "TypeError: object has no len") =
      (if name = "solveAPeriod" then Except.ok p.solveAPeriodSeq.length
        else match p.attrs name with
          | some (PyObj.seq xs) => Except.ok xs.length
          | _ => Except.error "TypeError: object has no len")
    rw [hat name hname]

/-- The per-period argument assembly of the two related agents produces
identical keyword arguments and related threaded dicts. -/
theorem periodTemp_rel {p q : Agent V} (hrel : SolveRel p q) (hns : NoSolutionName p)
    {args : List String} (hargs : "solution" ∉ args) {t : Nat} {s : V}
    {dp dq : SolveDict V} (hd : ∀ n, n ≠ "solution" → dq n = dp n)
    {temp : ArgDict V} {dp' : SolveDict V}
    (h : periodTemp p args t s dp = Except.ok (temp, dp')) :
    ∃ dq', periodTemp q args t s dq = Except.ok (temp, dq') ∧
      (∀ n, n ≠ "solution" → dq' n = dp' n) := by
  have hat : ∀ n, n ≠ "solution" → q.attrs n = p.attrs n := hrel.2.1
  unfold periodTemp at h ⊢
  cases hu : updateVary p args t dp p.time_vary with
  | error e => simp only [hu] at h; cases h
  | ok dp1 =>
    simp only [hu] at h
    obtain ⟨dq1, hqu, hrel1⟩ := updateVary_rel p.time_vary p q args t dp dq dp1 hat
      (fun n hn hh => hns.1 (hh ▸ hn)) hd hu
    have hskip : updateVary q args t dq1 ["solution"] = Except.ok dq1 := by
      rw [updateVary, if_neg hargs]
      rfl
    rw [hrel.1, updateVary_append]
    simp only [hqu, hskip]
    have hrel2 := setKey_rel hrel1 "solution_tp1" (some (PyObj.scalar s))
    rw [buildTemp_rel args _ _ (fun n hn hh => hargs (hh ▸ hn)) hrel2]
    cases hB : buildTemp (setKey dp1 "solution_tp1" (some (PyObj.scalar s))) args with
    | error e => simp only [hB] at h; cases h
    | ok tp =>
      simp only [hB] at h
      cases h
      exact ⟨_, rfl, hrel2⟩

end HARK

namespace HARK

variable {V : Type}

theorem getSolver_args_free {p : Agent V} (hns : NoSolutionName p) {t : Nat}
    {solver : Solver V} (h : getSolver p t = Except.ok solver) :
    "solution" ∉ solver.1 := by
  unfold getSolver at h
  by_cases hm : "solveAPeriod" ∈ p.time_vary
  · rw [if_pos hm] at h
    cases hg : p.solveAPeriodSeq.get? t with
    | none => rw [hg] at h; cases h
    | some s =>
      rw [hg] at h
      cases h
      exact hns.2.2.2.1 solver (List.get?_mem hg)
  · rw [if_neg hm] at h
    cases h
    exact hns.2.2.1

/-- The period loops of the two related agents produce identical
solutions. -/
theorem cycleLoop_rel :
    ∀ (T : Nat) (p q : Agent V), SolveRel p q → NoSolutionName p →
      ∀ (t : Nat) (dp dq : SolveDict V) (s : V) (ys : List V),
        (∀ n, n ≠ "solution" → dq n = dp n) →
        cycleLoop p T t dp s = Except.ok ys →
        cycleLoop q T t dq s = Except.ok ys := by
  intro T
  induction T with
  | zero =>
    intro p q _ _ t dp dq s ys _ h
    cases h
    rfl
  | succ m ih =>
    intro p q hrel hns t dp dq s ys hd h
    rw [cycleLoop] at h ⊢
    rw [getSolver_rel hrel t]
    cases hsol : getSolver p t with
    | error e => simp only [hsol] at h; cases h
    | ok solver =>
      simp only [hsol] at h ⊢
      cases hpt : periodTemp p solver.1 t s dp with
      | error e => simp only [hpt] at h; cases h
      | ok td =>
        obtain ⟨temp, dp1⟩ := td
        simp only [hpt] at h
        obtain ⟨dq1, hqpt, hrel1⟩ := periodTemp_rel hrel hns
          (getSolver_args_free hns hsol) hd hpt
        simp only [hqpt]
        cases hrun : solver.2 temp with
        | error e => simp only [hrun] at h; cases h
        | ok sol_t =>
          simp only [hrun] at h ⊢
          cases hrest : cycleLoop p m (t + 1) dp1 sol_t with
          | error e => simp only [hrest] at h; cases h
          | ok rest =>
            simp only [hrest] at h
            cases h
            rw [ih p q hrel hns (t + 1) dp1 dq1 sol_t rest hrel1 hrest]

/-- Related agents solve identical cycles. -/
theorem solveACycle_rel {p q : Agent V} (hrel : SolveRel p q)
    (hns : NoSolutionName p) {s : V} {ys : List V}
    (h : solveACycle p s = Except.ok ys) : solveACycle q s = Except.ok ys := by
  unfold solveACycle at h ⊢
  rw [periodCount_rel hrel hns]
  cases hT : periodCount p with
  | error e => simp only [hT] at h; cases h
  | ok T =>
    simp only [hT] at h ⊢
    cases hI : initSolveDict p with
    | error e => simp only [hI] at h; cases h
    | ok dp =>
      simp only [hI] at h
      obtain ⟨dq, hqI, hrelD⟩ := initSolveDict_rel hrel hns hI
      simp only [hqI]
      exact cycleLoop_rel T p q hrel hns 0 dp dq s ys hrelD h

theorem isSameThing_rel {p q : Agent V} (hrel : SolveRel p q) (x y : V) :
    isSameThing q x y = isSameThing p x y := by
  have hdist : q.distance = p.distance := hrel.2.2.2.2.2.2.2.2.2.2.1
  have htol : q.tolerance = p.tolerance := hrel.2.2.2.2.2.2.2.2.2.1
  unfold isSameThing
  rw [hdist, htol]

theorem solveFinLoop_rel {p q : Agent V} (hrel : SolveRel p q)
    (hns : NoSolutionName p) :
    ∀ (m : Nat) (s : V) (ys : List V) (n : Nat),
      solveFinLoop p s m = Except.ok (ys, n) →
      solveFinLoop q s m = Except.ok (ys, n) := by
  intro m
  induction m with
  | zero =>
    intro s ys n h
    cases h
    rfl
  | succ k ih =>
    intro s ys n h
    rw [solveFinLoop] at h ⊢
    cases h1 : solveACycle p s with
    | error e => simp only [h1] at h; cases h
    | ok cyc =>
      simp only [h1] at h
      rw [solveACycle_rel hrel hns h1]
      cases h2 : lastOf cyc with
      | error e => simp only [h2] at h; cases h
      | ok now =>
        simp only [h2] at h ⊢
        cases h3 : solveFinLoop p now k with
        | error e => simp only [h3] at h; cases h
        | ok pr =>
          obtain ⟨rest, n0⟩ := pr
          simp only [h3] at h
          cases h
          rw [ih now rest n0 h3]

theorem solveInfLoop_rel {p q : Agent V} (hrel : SolveRel p q)
    (hns : NoSolutionName p) :
    ∀ (fuel : Nat) (s : V) (c : Nat) (cyc : List V) (n : Nat),
      solveInfLoop p fuel s c = Except.ok (cyc, n) →
      solveInfLoop q fuel s c = Except.ok (cyc, n) := by
  intro fuel
  induction fuel with
  | zero => intro s c cyc n h; cases h
  | succ f ih =>
    intro s c cyc n h
    rw [solveInfLoop] at h ⊢
    cases h1 : solveACycle p s with
    | error e => simp only [h1] at h; cases h
    | ok cyc0 =>
      simp only [h1] at h
      rw [solveACycle_rel hrel hns h1]
      cases h2 : lastOf cyc0 with
      | error e => simp only [h2] at h; cases h
      | ok now =>
        simp only [h2] at h ⊢
        rw [isSameThing_rel hrel now s]
        by_cases hgo : (if 0 < c then !(isSameThing p now s) && decide (c < 5000)
            else true) = true
        · rw [if_pos hgo] at h ⊢
          exact ih now (c + 1) cyc n h
        · rw [if_neg hgo] at h ⊢
          exact h

end HARK

namespace HARK

variable {V : Type}

/-- A related agent (same data, with `'solution'` registered) solves to the
same solution list and cycle count. -/
theorem solveAgent_rel {a b : Agent V} (hrel : SolveRel a b) (hns : NoSolutionName a)
    {a1 : Agent V} {sols : List V} {n : Nat}
    (h : solveAgent a = Except.ok (a1, sols, n)) :
    ∃ b1, solveAgent b = Except.ok (b1, sols, n) ∧ b1.time_flow = a1.time_flow := by
  obtain ⟨a', hrev, hbr, hrest⟩ := solveAgent_ok_cases h
  obtain ⟨b', hqrev, hrel'⟩ := timeRev_rel hrel hns.1 hrev
  have hns' : NoSolutionName a' := noSolutionName_timeRev hrev hns
  have hbfl : b.time_flow = a.time_flow := hrel.2.2.2.2.2.2.2.2.2.2.2
  have hterm : b'.solution_terminal = a'.solution_terminal := hrel'.2.2.2.2.2.2.1
  have hcyb : b'.cycles = a'.cycles := hrel'.2.2.2.2.2.2.2.1
  have hpsb : b'.pseudo_terminal = a'.pseudo_terminal := hrel'.2.2.2.2.2.2.2.2.1
  have hres2 : ∃ b1, (if b.time_flow then timeFwd b' else Except.ok b') = Except.ok b1 ∧
      SolveRel a1 b1 := by
    by_cases hf : a.time_flow = true
    · rw [if_pos hf] at hrest
      obtain ⟨b1, hq1, hrel1⟩ := timeFwd_rel hrel' hns'.1 hrest
      exact ⟨b1, by rw [if_pos (hbfl.trans hf)]; exact hq1, hrel1⟩
    · rw [if_neg hf] at hrest
      cases hrest
      exact ⟨b', by rw [if_neg (fun hh => hf (hbfl.symm.trans hh))], hrel'⟩
  obtain ⟨b1, hq1, hrel1⟩ := hres2
  have hflb : b1.time_flow = a1.time_flow := hrel1.2.2.2.2.2.2.2.2.2.2.2
  rcases hbr with ⟨h0, cyc, hloop, hsols⟩ | ⟨h0, ys, hfin, hsols⟩
  · have hloopq : solveInfLoop b' 5001 b'.solution_terminal 0 = Except.ok (cyc, n) := by
      rw [hterm]
      exact solveInfLoop_rel hrel' hns' 5001 a'.solution_terminal 0 cyc n hloop
    refine ⟨b1, ?_, hflb⟩
    rw [hsols]
    exact solveAgent_build_inf hqrev (hcyb.trans h0) hloopq hq1
  · have hfinq : solveFinLoop b' b'.solution_terminal b'.cycles = Except.ok (ys, n) := by
      rw [hterm, hcyb]
      exact solveFinLoop_rel hrel' hns' a'.cycles a'.solution_terminal ys n hfin
    refine ⟨b1, ?_, hflb⟩
    rw [hsols]
    have hout := solveAgent_build_fin hqrev (fun hh => h0 (hcyb.symm.trans hh)) hfinq hq1
    rw [hpsb, hterm] at hout
    exact hout

/-- Counterexample to C8 as stated: an agent with no time-varying names
solves to `[1, 2]`, after which `'solution'` is registered time-varying
and becomes the first (and only) time-varying name, so the second solve
uses `T = 2` and returns `[1, 2, 3, 4]` — a different history. -/
theorem claim_C8_counterexample :
    ∃ b c, solve exNoVary = Except.ok b ∧ solve b = Except.ok c ∧
      b.attrs "solution" = some (PyObj.seq ([1, 2] : List Int)) ∧
      c.attrs "solution" = some (PyObj.seq ([1, 2, 3, 4] : List Int)) ∧
      (some (PyObj.seq ([1, 2, 3, 4] : List Int)) ≠
        some (PyObj.seq ([1, 2] : List Int))) := by
  refine ⟨_, _, rfl, rfl, rfl, rfl, by decide⟩

/-- Claim C8 amended: re-solving is idempotent provided the agent already
had a time-varying parameter and the name `'solution'` is fresh — not
among its time-varying or time-invariant names and not declared by any
per-period solver.  Then a second `solve()` on the unmodified result
succeeds and overwrites the stored solution with the identical list. -/
theorem claim_C8_resolve_idempotent {a b : Agent V}
    (hns : NoSolutionName a) (hb : solve a = Except.ok b) :
    ∃ c, solve b = Except.ok c ∧ c.attrs "solution" = b.attrs "solution" := by
  obtain ⟨a1, sols, n, hsa, hbdef⟩ := solve_ok_cases hb
  obtain ⟨hfl, hat, hsq, hsh⟩ := solveAgent_restores hsa
  have hvary1 : a1.time_vary = a.time_vary := hsh.2.2.2.2.2.1
  have hrel : SolveRel a b := by
    rw [hbdef]
    refine ⟨?_, ?_, ?_, hsh.2.2.2.2.2.2.1, hsh.2.2.2.2.2.2.2, hsq,
      hsh.1, hsh.2.1, hsh.2.2.1, hsh.2.2.2.1, hsh.2.2.2.2.1, hfl⟩
    · show (if "solution" ∈ a1.time_vary then a1.time_vary
        else a1.time_vary ++ ["solution"]) = a.time_vary ++ ["solution"]
      rw [hvary1, if_neg hns.1]
    · intro m hm
      show updAttr a1.attrs "solution" _ m = a.attrs m
      rw [updAttr_ne a1.attrs hm]
      exact hat m
    · refine ⟨if a1.time_flow then sols.reverse else sols, ?_⟩
      show updAttr a1.attrs "solution" _ "solution" = _
      rw [updAttr_self]
  obtain ⟨b1, hsb, hflb⟩ := solveAgent_rel hrel hns hsa
  refine ⟨_, solve_build hsb, ?_⟩
  show updAttr b1.attrs "solution"
      (PyObj.seq (if b1.time_flow then sols.reverse else sols)) "solution" =
    b.attrs "solution"
  rw [updAttr_self, hbdef]
  show _ = updAttr a1.attrs "solution"
      (PyObj.seq (if a1.time_flow then sols.reverse else sols)) "solution"
  rw [updAttr_self, hflb]

/-- Witness for the amended C8 at the concrete three-period agent. -/
theorem claim_C8_witness :
    ∃ b c, solve (mk3Agent false) = Except.ok b ∧ solve b = Except.ok c ∧
      c.attrs "solution" = b.attrs "solution" := by
  have hns : NoSolutionName (mk3Agent false) :=
    ⟨by decide, by decide, by decide,
      fun s hs => absurd hs (List.not_mem_nil s), by decide⟩
  obtain ⟨b, hb⟩ : ∃ b, solve (mk3Agent false) = Except.ok b := ⟨_, rfl⟩
  obtain ⟨c, hc, hattr⟩ := claim_C8_resolve_idempotent hns hb
  exact ⟨b, c, hb, hc, hattr⟩

end HARK
